import Mathlib

/-!
# Apex template renderer (`core/engine.go`)

A shallow embedding of `RenderFS`, `renderDir`, `renderFile`, `mkdirAll` and
`wrapPermission`, with the library calls they make:

* Go strings are Lean `String`s; `strings.HasPrefix`, `strings.TrimPrefix`,
  `strings.HasSuffix`, `strings.TrimSuffix` work on the character lists.
* `path.Join`, `filepath.Join`, `filepath.Dir`, `filepath.Base` are the
  slash-separated (Unix) versions, built on a component-level `Clean`.
* The embedded file system, the template engine and the operating system are
  an `Env` of functions: every call the code makes on them may fail.
* The destination file system is a `DestFS` value threaded through the code,
  together with a log of the `MkdirAll` and `OpenFile` calls made.
-/

namespace Apex

/-! ## Go `strings` -/

/-- Go `strings.HasPrefix`. -/
def hasPrefix (s pre : String) : Bool := pre.data.isPrefixOf s.data

/-- Go `strings.HasSuffix`. -/
def hasSuffix (s suf : String) : Bool := suf.data.isSuffixOf s.data

/-- Go `strings.TrimPrefix`: removes one leading `pre` when present. -/
def trimPrefix (s pre : String) : String :=
  if hasPrefix s pre then ⟨s.data.drop pre.data.length⟩ else s

/-- Go `strings.TrimSuffix`: removes one trailing `suf` when present. -/
def trimSuffix (s suf : String) : String :=
  if hasSuffix s suf then ⟨s.data.take (s.data.length - suf.data.length)⟩ else s

/-! ## Go `path` / `path/filepath` on slash-separated paths -/

/-- The elements of a path: the pieces between the slashes (some may be empty). -/
def splitSlash : List Char → List (List Char)
  | [] => [[]]
  | c :: cs =>
    if c = '/' then [] :: splitSlash cs
    else (c :: (splitSlash cs).headD []) :: (splitSlash cs).tail

/-- Elements joined with single slashes. -/
def joinSlash : List (List Char) → List Char
  | [] => []
  | [a] => a
  | a :: b :: t => a ++ '/' :: joinSlash (b :: t)

/-- A path is rooted when it starts with a slash. -/
def isRooted : List Char → Bool
  | [] => false
  | c :: _ => c == '/'

/-- One step of `Clean` on the stack of elements kept so far (last kept element
first): empty and `.` elements are dropped, `..` removes the last kept element
when there is one to remove, is dropped at the root of a rooted path and is kept
otherwise, any other element is kept. -/
def cleanStep (rooted : Bool) (st : List (List Char)) (e : List Char) : List (List Char) :=
  if e = [] ∨ e = ['.'] then st
  else if e = ['.', '.'] then
    match st with
    | [] => if rooted then [] else [e]
    | top :: rest => if top = ['.', '.'] then e :: st else rest
  else e :: st

/-- The elements `Clean` keeps, last one first. -/
def pathStack (s : List Char) : List (List Char) :=
  (splitSlash s).foldl (cleanStep (isRooted s)) []

/-- The path written back from its kept elements. -/
def renderPath (rooted : Bool) (st : List (List Char)) : List Char :=
  if rooted then '/' :: joinSlash st.reverse
  else if st = [] then ['.'] else joinSlash st.reverse

/-- Go `path.Clean` (and `filepath.Clean` with `/` as the separator). -/
def clean (s : List Char) : List Char :=
  if s = [] then ['.'] else renderPath (isRooted s) (pathStack s)

/-- Go `path.Join` of two elements. -/
def pathJoin (a b : String) : String :=
  if a.data = [] then (if b.data = [] then "" else ⟨clean b.data⟩)
  else ⟨clean (a.data ++ '/' :: b.data)⟩

/-- Go `filepath.Join` of two elements, with `/` as the separator. -/
def filepathJoin (a b : String) : String :=
  if a.data = [] then (if b.data = [] then "" else ⟨clean b.data⟩)
  else ⟨clean (a.data ++ '/' :: b.data)⟩

/-- The part of a path up to and including its last slash. -/
def dirPrefix (l : List Char) : List Char :=
  (l.reverse.dropWhile (fun c => c != '/')).reverse

/-- Go `filepath.Dir`, with `/` as the separator. -/
def filepathDir (p : String) : String := ⟨clean (dirPrefix p.data)⟩

/-- Go `filepath.Base`, with `/` as the separator. -/
def filepathBase (p : String) : String :=
  if p.data = [] then "."
  else
    let q := (p.data.reverse.dropWhile (fun c => c == '/')).reverse
    let b := (q.reverse.takeWhile (fun c => c != '/')).reverse
    if b = [] then "/" else ⟨b⟩

/-! ## Errors -/

/-- A Go `error`: an error of the operating system or of a library (with its
message and whether `os.IsPermission` holds of it), or an error made by
`fmt.Errorf` with `%w` around another one. -/
inductive Err where
  | base (msg : String) (perm : Bool)
  | wrap (msg : String) (inner : Err)
  deriving DecidableEq, Repr

/-- Go `err.Error()`. -/
def Err.message : Err → String
  | .base m _ => m
  | .wrap m _ => m

/-- Go `errors.Unwrap`. -/
def Err.unwrap : Err → Option Err
  | .base _ _ => none
  | .wrap _ e => some e

/-- Go `os.IsPermission`: it looks at the error itself, not through `%w`. -/
def isPermission : Err → Bool
  | .base _ p => p
  | .wrap _ _ => false

/-- The function `wrapPermission` of `core/engine.go`. -/
def wrapPermission (err : Err) (target : String) : Err :=
  if isPermission err then
    .wrap ("permission denied: " ++ target ++ ": " ++ err.message) err
  else err

/-! ## The destination file system -/

/-- A call the code made on the destination file system. -/
inductive Event where
  | mkdirOk (dir : String)
  | mkdirFail (dir : String) (e : Err)
  | openOk (path : String)
  | openFail (path : String) (e : Err)
  deriving DecidableEq, Repr

/-- The target path of a call. -/
def Event.target : Event → String
  | .mkdirOk d => d
  | .mkdirFail d _ => d
  | .openOk p => p
  | .openFail p _ => p

/-- The destination: the directories known to exist (those on which `MkdirAll`
succeeded), the files with their content (the first pair of a path counts), and
the calls made so far, latest first. -/
structure DestFS where
  dirs : List String
  files : List (String × String)
  log : List Event
  deriving DecidableEq, Repr

/-- The content of the file at a path, when there is one. -/
def fileAt (s : DestFS) (p : String) : Option String := s.files.lookup p

deriving instance DecidableEq for Except

/-- An entry of a directory listing (`fs.DirEntry`). -/
structure DirEntry where
  name : String
  isDir : Bool
  deriving DecidableEq, Repr

/-- What the code calls: the embedded file system (`fs.Stat`, `fs.ReadDir`,
`ReadFile`), the template engine (`Parse` of a named template, `Execute` with
the output produced and the error met, if any), and the operating system
(whether `MkdirAll`, `OpenFile` or writing fails on a given destination; a
failed write says what part was written). -/
structure Env (Data : Type) where
  stat : String → Except Err Bool
  readDir : String → Except Err (List DirEntry)
  readFile : String → Except Err String
  parseErr : String → String → Option Err
  execute : String → String → Data → String × Option Err
  mkdirAllErr : DestFS → String → Option Err
  openErr : DestFS → String → Option Err
  writeErr : DestFS → String → String → Option (String × Err)

/-- The function `mkdirAll` of `core/engine.go`. -/
def mkdirAll {Data : Type} (env : Env Data) (dir : String) (s : DestFS) : DestFS × Option Err :=
  match env.mkdirAllErr s dir with
  | some err => ({ s with log := .mkdirFail dir err :: s.log }, some (wrapPermission err dir))
  | none => ({ s with dirs := dir :: s.dirs, log := .mkdirOk dir :: s.log }, none)

/-- Go `os.OpenFile(path, O_CREATE|O_WRONLY|O_TRUNC, 0o644)`: on success the file
exists and is empty. -/
def openFile {Data : Type} (env : Env Data) (path : String) (s : DestFS) : DestFS × Option Err :=
  match env.openErr s path with
  | some err => ({ s with log := .openFail path err :: s.log }, some err)
  | none => ({ s with files := (path, "") :: s.files, log := .openOk path :: s.log }, none)

/-- Writing to the open file: the bytes are appended; a failed write appends
the part that got through. -/
def writeFile {Data : Type} (env : Env Data) (path : String) (bytes : String) (s : DestFS) :
    DestFS × Option Err :=
  match env.writeErr s path bytes with
  | some (done, err) =>
    ({ s with files := (path, (fileAt s path).getD "" ++ done) :: s.files }, some err)
  | none => ({ s with files := (path, (fileAt s path).getD "" ++ bytes) :: s.files }, none)

/-- The function `renderFile` of `core/engine.go`. -/
def renderFile {Data : Type} (env : Env Data) (srcPath destPath : String) (data : Data)
    (s : DestFS) : DestFS × Option Err :=
  match env.readFile srcPath with
  | .error err => (s, some err)
  | .ok content =>
    if hasSuffix destPath ".tmpl" then
      let destPath := trimSuffix destPath ".tmpl"
      match env.parseErr (filepathBase srcPath) content with
      | some err => (s, some err)
      | none =>
        match mkdirAll env (filepathDir destPath) s with
        | (s1, some err) => (s1, some err)
        | (s1, none) =>
          match openFile env destPath s1 with
          | (s2, some err) => (s2, some (wrapPermission err destPath))
          | (s2, none) =>
            let out := env.execute (filepathBase srcPath) content data
            match writeFile env destPath out.1 s2 with
            | (s3, some err) => (s3, some err)
            | (s3, none) => (s3, out.2)
    else
      match mkdirAll env (filepathDir destPath) s with
      | (s1, some err) => (s1, some err)
      | (s1, none) =>
        match openFile env destPath s1 with
        | (s2, some err) => (s2, some (wrapPermission err destPath))
        | (s2, none) => writeFile env destPath content s2

/-- The destination name of an entry in `renderDir`. -/
def destName (name : String) : String :=
  if hasPrefix name "dot." then "." ++ trimPrefix name "dot." else name

/-- The loop of `renderDir` over the entries; `recur` is `renderDir` itself,
called on the nested directories. `none` is only ever the `none` of `recur`. -/
def renderEntries {Data : Type} (recur : String → String → DestFS → Option (DestFS × Option Err))
    (env : Env Data) (srcDir destDir : String) (data : Data) :
    List DirEntry → DestFS → Option (DestFS × Option Err)
  | [], s => some (s, none)
  | entry :: rest, s =>
    let srcPath := pathJoin srcDir entry.name
    let destPath := filepathJoin destDir (destName entry.name)
    if entry.isDir then
      match recur srcPath destPath s with
      | none => none
      | some (s1, some err) => some (s1, some err)
      | some (s1, none) => renderEntries recur env srcDir destDir data rest s1
    else
      match renderFile env srcPath destPath data s with
      | (s1, some err) => some (s1, some err)
      | (s1, none) => renderEntries recur env srcDir destDir data rest s1

/-- The function `renderDir` of `core/engine.go`. The first argument bounds the depth of
nested directories followed; `none` means the bound was reached. -/
def renderDir {Data : Type} (env : Env Data) (data : Data) :
    Nat → String → String → DestFS → Option (DestFS × Option Err)
  | 0, _, _, _ => none
  | fuel + 1, srcDir, destDir, s =>
    match env.readDir srcDir with
    | .error err => some (s, some err)
    | .ok entries =>
      match mkdirAll env destDir s with
      | (s1, some err) => some (s1, some err)
      | (s1, none) => renderEntries (renderDir env data fuel) env srcDir destDir data entries s1

/-- The function `RenderFS` of `core/engine.go`. -/
def RenderFS {Data : Type} (fuel : Nat) (env : Env Data) (templateRoot : String) (data : Data)
    (destRoot : String) (s : DestFS) : Option (DestFS × Option Err) :=
  match env.stat templateRoot with
  | .error err => some (s, some err)
  | .ok isDir =>
    if !isDir then some (renderFile env templateRoot destRoot data s)
    else renderDir env data fuel templateRoot destRoot s

/-! ## Notions used to state the properties -/

/-- An ordinary path element: not empty, not `.`, not `..`, without a slash. -/
def Normal (e : List Char) : Prop :=
  e ≠ [] ∧ e ≠ ['.'] ∧ e ≠ ['.', '.'] ∧ '/' ∉ e

instance (e : List Char) : Decidable (Normal e) := by
  unfold Normal; infer_instance

/-- The shape of the stack `Clean` keeps: ordinary elements, above a run of `..`
elements that only a path that is not rooted can have. -/
def NF (r : Bool) : List (List Char) → Prop
  | [] => True
  | e :: st => (Normal e ∨ (r = false ∧ e = ['.', '.'] ∧ ∀ x ∈ st, x = ['.', '.'])) ∧ NF r st

/-- What `renderPath` writes before the last kept element. -/
def pathPre (r : Bool) (st : List (List Char)) : List Char :=
  if st = [] then (if r then ['/'] else []) else renderPath r st ++ ['/']

/-- Path `p` lies at or below `root`: cleaned, both are rooted or both are not,
the elements of `root` are the first elements of `p`, and no further element of
`p` is `..`. -/
def within (root p : String) : Bool :=
  (isRooted p.data == isRooted root.data) &&
  (pathStack root.data).isSuffixOf (pathStack p.data) &&
  ((pathStack p.data).take ((pathStack p.data).length - (pathStack root.data).length)).all
    (fun e => e != ['.', '.'])

/-- A single path element, as `fs.ReadDir` returns them: not empty, without a
slash, not `.` and not `..`. -/
def pathElem (n : String) : Prop :=
  n.data ≠ [] ∧ '/' ∉ n.data ∧ n.data ≠ ['.'] ∧ n.data ≠ ['.', '.']

instance (n : String) : Decidable (pathElem n) := by
  unfold pathElem; infer_instance

/-- A name that an `embed.FS` can hold. The `go` tool embeds a file or directory
only when every element of its path passes `module.CheckFilePath`, which
refuses the empty element and an element that ends in a dot; an entry name is
one element, so it has no slash. -/
def embedName (n : String) : Prop :=
  n.data ≠ [] ∧ '/' ∉ n.data ∧ n.data.getLast? ≠ some '.'

instance (n : String) : Decidable (embedName n) := by
  unfold embedName; infer_instance

/-- A path element other than `dot.` and `dot..`, whose destination names would
be `.` and `..`. -/
def plainName (n : String) : Prop :=
  pathElem n ∧ n ≠ "dot." ∧ n ≠ "dot.."

instance (n : String) : Decidable (plainName n) := by
  unfold plainName; infer_instance

/-- The steps both branches of `renderFile` end with: make the parent directory,
open the file, write `bytes`; `fin` is the error of the template execution, if
any, returned when all writes went through. -/
def emit {Data : Type} (env : Env Data) (path bytes : String) (fin : Option Err) (s : DestFS) :
    DestFS × Option Err :=
  match mkdirAll env (filepathDir path) s with
  | (s1, some err) => (s1, some err)
  | (s1, none) =>
    match openFile env path s1 with
    | (s2, some err) => (s2, some (wrapPermission err path))
    | (s2, none) =>
      match writeFile env path bytes s2 with
      | (s3, some err) => (s3, some err)
      | (s3, none) => (s3, fin)

/-- The destination after the parent directory of `path` was made. -/
def afterMkdir (s : DestFS) (path : String) : DestFS :=
  { s with dirs := filepathDir path :: s.dirs, log := .mkdirOk (filepathDir path) :: s.log }

/-- The destination after `path` was then opened: the file is there and empty. -/
def afterOpen (s : DestFS) (path : String) : DestFS :=
  { dirs := filepathDir path :: s.dirs,
    files := (path, "") :: s.files,
    log := .openOk path :: .mkdirOk (filepathDir path) :: s.log }

/-- The destination after `bytes` were then written to `path`. -/
def written (s : DestFS) (path bytes : String) : DestFS :=
  { dirs := filepathDir path :: s.dirs,
    files := (path, bytes) :: (path, "") :: s.files,
    log := .openOk path :: .mkdirOk (filepathDir path) :: s.log }

/-- The naming rule in the words of the specification: a name that starts with
`dot.` becomes `.` followed by the rest of the name, any other name is kept. -/
def destNameSpec (name : String) : String :=
  match name.data with
  | 'd' :: 'o' :: 't' :: '.' :: rest => ⟨'.' :: rest⟩
  | _ => name

/-- What `renderDir` does with one entry: the body of its loop. -/
def renderEntry {Data : Type} (recur : String → String → DestFS → Option (DestFS × Option Err))
    (env : Env Data) (srcDir destDir : String) (data : Data) (entry : DirEntry) (s : DestFS) :
    Option (DestFS × Option Err) :=
  if entry.isDir then
    recur (pathJoin srcDir entry.name) (filepathJoin destDir (destNameSpec entry.name)) s
  else
    some (renderFile env (pathJoin srcDir entry.name)
      (filepathJoin destDir (destNameSpec entry.name)) data s)

/-- Every entry of the list returns no error, each starting from the
destination the one before left; `s1` is the destination after the last one. -/
def AllSucceed {Data : Type} (recur : String → String → DestFS → Option (DestFS × Option Err))
    (env : Env Data) (srcDir destDir : String) (data : Data) :
    List DirEntry → DestFS → DestFS → Prop
  | [], s, s1 => s1 = s
  | entry :: rest, s, s1 =>
    ∃ s2, renderEntry recur env srcDir destDir data entry s = some (s2, none) ∧
      AllSucceed recur env srcDir destDir data rest s2 s1

/-- The path `renderFile` opens for a destination path: the path without its
`.tmpl` when it ends in `.tmpl`, the path itself otherwise. -/
def outPath (dest : String) : String :=
  if hasSuffix dest ".tmpl" then trimSuffix dest ".tmpl" else dest

/-- The calls logged between `s` and `s1` are `new`, and when one of them is a
failed `MkdirAll` or `OpenFile`, the error returned is `wrapPermission` of that
failure and its target. -/
def FailsWrapped (s s1 : DestFS) (r : Option Err) : Prop :=
  ∃ new, s1.log = new ++ s.log ∧
    ∀ t e, (Event.mkdirFail t e ∈ new ∨ Event.openFail t e ∈ new) →
      r = some (wrapPermission e t)

/-- The relation `within`, as a proposition on the kept elements. -/
def Under (root p : String) : Prop :=
  isRooted p.data = isRooted root.data ∧
    ∃ extra, pathStack p.data = extra ++ pathStack root.data ∧ ∀ e ∈ extra, e ≠ ['.', '.']

/-- Path `p` is `root` or a parent of it: cleaned, both are rooted or both are
not, and the elements of `p` are the first elements of `root`. -/
def above (root p : String) : Bool :=
  (isRooted p.data == isRooted root.data) &&
  (pathStack p.data).isSuffixOf (pathStack root.data)

/-- Modelled from Go's `os.MkdirAll`: the parent it makes sure exists before it
makes `path`, the path without its trailing slashes and its last element. -/
def mkdirParent (path : String) : String :=
  ⟨dirPrefix (path.data.reverse.dropWhile (fun c => c == '/')).reverse⟩

/-- Modelled from Go's `os.MkdirAll`: the directories a call on `path` makes,
where `ex` tells which paths are directories already. None when `path` is one;
otherwise those the call on the parent makes, when there is a parent, and then
`path` itself. The number bounds the recursion; the length of the path is
enough. -/
def mkdirAllMakes (ex : String → Bool) : Nat → String → List String
  | 0, _ => []
  | n + 1, path =>
    if ex path then []
    else
      (if (mkdirParent path).data = [] then [] else mkdirAllMakes ex n (mkdirParent path)) ++
        [path]

/-- The last element of the path is `..`: the path names a directory. -/
def endsInDotDot (p : String) : Bool :=
  (splitSlash p.data).getLast? == some ['.', '.']

/-- A cleaned path at or below `root`: written back from elements that are
those of `root` followed by elements other than `..`. -/
def CleanBelow (root d : String) : Prop :=
  ∃ st extra, NF (isRooted root.data) st ∧ d = ⟨renderPath (isRooted root.data) st⟩ ∧
    st = extra ++ pathStack root.data ∧ ∀ e ∈ extra, e ≠ ['.', '.']

/-- Between `s` and `s1` every file opened is at or below `root`, and every
`MkdirAll` call, failed or not, is on `root` itself or on a cleaned path at or
below `root`. -/
def Contained (root : String) (s s1 : DestFS) : Prop :=
  ∃ new, s1.log = new ++ s.log ∧
    (∀ p, Event.openOk p ∈ new → within root p = true) ∧
    (∀ d, (Event.mkdirOk d ∈ new ∨ ∃ e, Event.mkdirFail d e ∈ new) →
      d = root ∨ CleanBelow root d)

/-- A cleaned directory path with at least one element: what comes before an
element joined to it is the path and a slash. -/
def CleanDir (d : String) : Prop :=
  pathPre (isRooted d.data) (pathStack d.data) = d.data ++ ['/']

/-- The directory `src`, with destination `dst`, is the directory `a` with
destination `b` or is met below it in the walk: through entries that are
directories, each with its source path and its destination path. -/
inductive Reach {Data : Type} (env : Env Data) : String → String → String → String → Prop where
  | here (a b : String) : Reach env a b a b
  | deeper (a b src dst : String) (es : List DirEntry) (e : DirEntry) :
      env.readDir a = .ok es → e ∈ es → e.isDir = true →
      Reach env (pathJoin a e.name) (filepathJoin b (destName e.name)) src dst →
      Reach env a b src dst

/-- Go string order on the characters: the order in which `embed.FS` lists the
entries of a directory. -/
def ltChars : List Char → List Char → Bool
  | [], [] => false
  | [], _ :: _ => true
  | _ :: _, [] => false
  | a :: as, b :: bs => decide (a.toNat < b.toNat) || (a == b && ltChars as bs)

/-- Name `a` is listed before name `b`. -/
def nameLt (a b : String) : Prop := ltChars a.data b.data = true

instance (a b : String) : Decidable (nameLt a b) := by
  unfold nameLt; infer_instance

/-! ## Sample inputs -/

/-- A stand-in for the output of `text/template` on the sample templates: every
`{{.}}` is replaced by the data. -/
def substDot (data : List Char) : List Char → List Char
  | '{' :: '{' :: '.' :: '}' :: '}' :: rest => data ++ substDot data rest
  | c :: rest => c :: substDot data rest
  | [] => []

/-- The error of the embedded file system for a path it does not hold. -/
def notExist (p : String) : Err := .base ("open " ++ p ++ ": file does not exist") false

/-- An embedded file system with the given directory listings and files, the
stand-in template engine (a template that is just `{{` does not parse) and an
operating system on which nothing fails. -/
def sampleEnv (dirs : List (String × List DirEntry)) (files : List (String × String)) :
    Env String where
  stat p :=
    if (dirs.lookup p).isSome then .ok true
    else if (files.lookup p).isSome then .ok false
    else .error (notExist p)
  readDir p :=
    match dirs.lookup p with
    | some es => .ok es
    | none => .error (notExist p)
  readFile p :=
    match files.lookup p with
    | some c => .ok c
    | none => .error (notExist p)
  parseErr _ content :=
    if content = "\x7b\x7b" then some (.base "template: unclosed action" false) else none
  execute _ content data := (⟨substDot data.data content.data⟩, none)
  mkdirAllErr _ _ := none
  openErr _ _ := none
  writeErr _ _ _ := none

/-- A destination with nothing in it. -/
def emptyFS : DestFS := { dirs := [], files := [], log := [] }

/-- The listings of a template directory `t` with a template, a hidden-file
placeholder, a nested directory and a static file. -/
def demoDirs : List (String × List DirEntry) :=
  [("t", [⟨"a.tmpl", false⟩, ⟨"dot.env", false⟩, ⟨"sub", true⟩, ⟨"z.txt", false⟩]),
   ("t/sub", [⟨"b.txt", false⟩])]

/-- The files of the sample directory, and one that does not parse. -/
def demoFiles : List (String × String) :=
  [("t/a.tmpl", "Hello {{.}}"), ("t/dot.env", "KEY=1"), ("t/sub/b.txt", "plain {{.}}"),
   ("t/z.txt", "last"), ("t/bad.tmpl", "\x7b\x7b")]

/-- The sample directory. -/
def demoEnv : Env String := sampleEnv demoDirs demoFiles

/-- A bound on the nesting below each directory of the sample directory. -/
def demoDepth (p : String) : Nat := if p = "t" then 1 else 0

/-- The sample directory on an operating system that refuses, with a permission
error, to open `out/sub/b.txt`. -/
def deniedEnv : Env String :=
  { demoEnv with
    openErr := fun _ p =>
      if p = "out/sub/b.txt" then some (.base "open out/sub/b.txt: permission denied" true)
      else none }


/-- The failure of `deniedEnv`. -/
def deniedErr : Err := .base "open out/sub/b.txt: permission denied" true

/-- The destination once `out` is made. -/
def outMade : DestFS := { dirs := ["out"], files := [], log := [.mkdirOk "out"] }

/-- The destination in which the walk of the sample directory ends on
`deniedEnv`: `a` and `.env` written, `out/sub` made, `out/sub/b.txt` refused,
`z.txt` not handled. -/
def deniedFinal : DestFS :=
  { dirs := ["out/sub", "out/sub", "out", "out", "out"],
    files := [("out/.env", "KEY=1"), ("out/.env", ""), ("out/a", "Hello World"), ("out/a", "")],
    log := [.openFail "out/sub/b.txt" deniedErr, .mkdirOk "out/sub", .mkdirOk "out/sub",
      .openOk "out/.env", .mkdirOk "out", .openOk "out/a", .mkdirOk "out", .mkdirOk "out"] }

/-- The destination in which the walk of the sample directory ends. -/
def demoFinal : DestFS :=
  { dirs := ["out", "out/sub", "out/sub", "out", "out", "out"],
    files := [("out/z.txt", "last"), ("out/z.txt", ""), ("out/sub/b.txt", "plain {{.}}"),
      ("out/sub/b.txt", ""), ("out/.env", "KEY=1"), ("out/.env", ""), ("out/a", "Hello World"),
      ("out/a", "")],
    log := [.openOk "out/z.txt", .mkdirOk "out", .openOk "out/sub/b.txt", .mkdirOk "out/sub",
      .mkdirOk "out/sub", .openOk "out/.env", .mkdirOk "out", .openOk "out/a", .mkdirOk "out",
      .mkdirOk "out"] }

/-- A template directory with a static file `x`, a template `x.tmpl`, a nested
directory and a last static file. -/
def pairDirs : List (String × List DirEntry) :=
  [("t", [⟨"x", false⟩, ⟨"x.tmpl", false⟩, ⟨"y", true⟩, ⟨"z", false⟩]),
   ("t/y", [⟨"x", false⟩])]

/-- The sample directory with `x` and `x.tmpl`. -/
def pairEnv : Env String :=
  sampleEnv pairDirs
    [("t/x", "static"), ("t/x.tmpl", "made for {{.}}"), ("t/y/x", "nested"), ("t/z", "last")]

/-- The destination in which the walk of `pairEnv` ends. -/
def pairFinal : DestFS :=
  { dirs := ["out", "out/y", "out/y", "out", "out", "out"],
    files := [("out/z", "last"), ("out/z", ""), ("out/y/x", "nested"), ("out/y/x", ""),
      ("out/x", "made for World"), ("out/x", ""), ("out/x", "static"), ("out/x", "")],
    log := [.openOk "out/z", .mkdirOk "out", .openOk "out/y/x", .mkdirOk "out/y",
      .mkdirOk "out/y", .openOk "out/x", .mkdirOk "out", .openOk "out/x", .mkdirOk "out",
      .mkdirOk "out"] }

/-- A template directory with a static `.env`, a template `.env.tmpl` and a
hidden-file placeholder `dot.env`. -/
def hiddenEnv : Env String :=
  sampleEnv [("t", [⟨".env", false⟩, ⟨".env.tmpl", false⟩, ⟨"dot.env", false⟩])]
    [("t/.env", "A=static"), ("t/.env.tmpl", "A={{.}}"), ("t/dot.env", "A=placeholder")]

/-- A template directory with a static file `dot` and a template `dot.tmpl`,
on an operating system that refuses to open the directory `out/` as a file. -/
def dotTmplEnv : Env String :=
  { sampleEnv [("t", [⟨"dot", false⟩, ⟨"dot.tmpl", false⟩])]
      [("t/dot", "static"), ("t/dot.tmpl", "made for {{.}}")] with
    openErr := fun _ p =>
      if p = "out/" then some (.base "open out/: is a directory" false) else none }

/-- The sample directory on an operating system that refuses, with a permission
error, to make the directory `out/sub`. -/
def mkdirDeniedEnv : Env String :=
  { demoEnv with
    mkdirAllErr := fun _ p =>
      if p = "out/sub" then some (.base "mkdir out/sub: permission denied" true) else none }

/-- The sample directory on an operating system on which `out/sub` cannot be
made because `out/sub` is a file: not a permission error. -/
def notDirEnv : Env String :=
  { demoEnv with
    mkdirAllErr := fun _ p =>
      if p = "out/sub" then some (.base "mkdir out/sub: not a directory" false) else none }

/-- The destination in which the walk of the sample directory ends when
`out/sub` cannot be made with the error `e`: `a` and `.env` written, `b.txt` and
`z.txt` not handled. -/
def mkdirFailFinal (e : Err) : DestFS :=
  { dirs := ["out", "out", "out"],
    files := [("out/.env", "KEY=1"), ("out/.env", ""), ("out/a", "Hello World"), ("out/a", "")],
    log := [.mkdirFail "out/sub" e, .openOk "out/.env", .mkdirOk "out", .openOk "out/a",
      .mkdirOk "out", .mkdirOk "out"] }

/-- The sample directory on an operating system that refuses to open a path
whose last element is `..` for writing. -/
def posixEnv : Env String :=
  { demoEnv with
    openErr := fun _ p =>
      if endsInDotDot p then some (.base "open: is a directory" false) else none }

/-- The destination in which the walk of the sample directory ends under the
destination root `a/out`. -/
def deepFinal : DestFS :=
  { dirs := ["a/out", "a/out/sub", "a/out/sub", "a/out", "a/out", "a/out"],
    files := [("a/out/z.txt", "last"), ("a/out/z.txt", ""), ("a/out/sub/b.txt", "plain {{.}}"),
      ("a/out/sub/b.txt", ""), ("a/out/.env", "KEY=1"), ("a/out/.env", ""),
      ("a/out/a", "Hello World"), ("a/out/a", "")],
    log := [.openOk "a/out/z.txt", .mkdirOk "a/out", .openOk "a/out/sub/b.txt",
      .mkdirOk "a/out/sub", .mkdirOk "a/out/sub", .openOk "a/out/.env", .mkdirOk "a/out",
      .openOk "a/out/a", .mkdirOk "a/out", .mkdirOk "a/out"] }
/-! ## Facts about paths -/

theorem splitSlash_ne_nil (s : List Char) : splitSlash s ≠ [] := by
  cases s with
  | nil => simp [splitSlash]
  | cons c cs =>
    simp only [splitSlash]
    split <;> simp

theorem splitSlash_append_slash (a b : List Char) :
    splitSlash (a ++ '/' :: b) = splitSlash a ++ splitSlash b := by
  induction a with
  | nil => simp [splitSlash]
  | cons c a ih =>
    simp only [List.cons_append, splitSlash]
    by_cases hc : c = '/'
    · simp [hc, ih]
    · rw [if_neg hc, if_neg hc]
      simp only [List.append_eq]
      rw [ih]
      cases h : splitSlash a with
      | nil => exact absurd h (splitSlash_ne_nil a)
      | cons x t => simp

theorem splitSlash_noslash {e : List Char} (h : '/' ∉ e) : splitSlash e = [e] := by
  induction e with
  | nil => simp [splitSlash]
  | cons c e ih =>
    have hc : c ≠ '/' := fun hh => h (by simp [hh])
    have he : '/' ∉ e := fun hh => h (by simp [hh])
    simp [splitSlash, hc, ih he]

theorem splitSlash_mem_noslash (s : List Char) : ∀ e ∈ splitSlash s, '/' ∉ e := by
  induction s with
  | nil => simp [splitSlash]
  | cons c cs ih =>
    simp only [splitSlash]
    by_cases hc : c = '/'
    · simp only [hc, if_true]
      intro e he
      rcases List.mem_cons.1 he with h | h
      · simp [h]
      · exact ih e h
    · simp only [hc, if_false]
      cases h : splitSlash cs with
      | nil => exact absurd h (splitSlash_ne_nil cs)
      | cons x t =>
        rw [h] at ih
        intro e he
        rcases List.mem_cons.1 he with h1 | h1
        · subst h1
          intro hm
          rcases List.mem_cons.1 hm with h2 | h2
          · exact hc h2.symm
          · exact ih x (List.mem_cons_self _ _) h2
        · exact ih e (List.mem_cons_of_mem _ h1)

theorem joinSlash_append_single (l : List (List Char)) (e : List Char) (hl : l ≠ []) :
    joinSlash (l ++ [e]) = joinSlash l ++ '/' :: e := by
  induction l with
  | nil => exact absurd rfl hl
  | cons a t ih =>
    cases t with
    | nil => simp [joinSlash]
    | cons b t =>
      have := ih (by simp)
      simp only [List.cons_append] at this ⊢
      simp [joinSlash, this]

theorem splitSlash_joinSlash (l : List (List Char)) (hl : l ≠ []) (h : ∀ e ∈ l, '/' ∉ e) :
    splitSlash (joinSlash l) = l := by
  induction l with
  | nil => exact absurd rfl hl
  | cons a t ih =>
    cases t with
    | nil => simpa [joinSlash] using splitSlash_noslash (h a (by simp))
    | cons b t =>
      have h1 := ih (by simp) (fun e he => h e (List.mem_cons_of_mem _ he))
      simp only [joinSlash, splitSlash_append_slash]
      rw [splitSlash_noslash (h a (by simp))]
      simp only [joinSlash] at h1
      simp [h1]

theorem cleanStep_normal (r : Bool) (st : List (List Char)) {e : List Char} (h : Normal e) :
    cleanStep r st e = e :: st := by
  obtain ⟨h1, h2, h3, _⟩ := h
  simp [cleanStep, h1, h2, h3]

theorem cleanStep_skip (r : Bool) (st : List (List Char)) {e : List Char}
    (h : e = [] ∨ e = ['.']) : cleanStep r st e = st := by
  simp [cleanStep, h]

theorem cleanStep_NF {r : Bool} {st : List (List Char)} {e : List Char} (he : '/' ∉ e)
    (h : NF r st) : NF r (cleanStep r st e) := by
  by_cases h1 : e = [] ∨ e = ['.']
  · rw [cleanStep_skip r st h1]; exact h
  · by_cases h2 : e = ['.', '.']
    · subst h2
      cases st with
      | nil =>
        cases r
        · simp [cleanStep, NF]
        · simp [cleanStep, NF]
      | cons top rest =>
        by_cases h3 : top = ['.', '.']
        · subst h3
          have hd : ¬ Normal ['.', '.'] := fun hn => hn.2.2.1 rfl
          rcases h.1 with hn | ⟨hr, _, hall⟩
          · exact absurd hn hd
          · have : cleanStep r (['.', '.'] :: rest) ['.', '.'] = ['.', '.'] :: ['.', '.'] :: rest := by
              simp [cleanStep]
            rw [this]
            refine ⟨Or.inr ⟨hr, rfl, ?_⟩, h⟩
            intro x hx
            rcases List.mem_cons.1 hx with hx | hx
            · exact hx
            · exact hall x hx
        · have : cleanStep r (top :: rest) ['.', '.'] = rest := by
            simp [cleanStep, h3]
          rw [this]; exact h.2
    · have hn : Normal e := by
        refine ⟨fun hh => h1 (Or.inl hh), fun hh => h1 (Or.inr hh), h2, he⟩
      rw [cleanStep_normal r st hn]
      exact ⟨Or.inl hn, h⟩

theorem foldl_cleanStep_NF {r : Bool} (l : List (List Char)) (hl : ∀ e ∈ l, '/' ∉ e) :
    ∀ st, NF r st → NF r (l.foldl (cleanStep r) st) := by
  induction l with
  | nil => intro st h; exact h
  | cons a t ih =>
    intro st h
    simp only [List.foldl_cons]
    exact ih (fun e he => hl e (List.mem_cons_of_mem _ he)) _
      (cleanStep_NF (hl a (List.mem_cons_self _ _)) h)

theorem pathStack_NF (s : List Char) : NF (isRooted s) (pathStack s) :=
  foldl_cleanStep_NF _ (splitSlash_mem_noslash s) [] trivial

theorem NF_mem {r : Bool} {st : List (List Char)} (h : NF r st) :
    ∀ e ∈ st, '/' ∉ e ∧ e ≠ [] := by
  induction st with
  | nil => simp
  | cons a t ih =>
    intro e he
    rcases List.mem_cons.1 he with h1 | h1
    · subst h1
      rcases h.1 with hn | ⟨_, hd, _⟩
      · exact ⟨hn.2.2.2, hn.1⟩
      · subst hd; decide
    · exact ih h.2 e h1

theorem cleanStep_of_NF_cons {r : Bool} {e : List Char} {st : List (List Char)}
    (h : NF r (e :: st)) : cleanStep r st e = e :: st := by
  rcases h.1 with hn | ⟨hr, hd, hall⟩
  · exact cleanStep_normal r st hn
  · subst hd; subst hr
    cases st with
    | nil => simp [cleanStep]
    | cons top rest =>
      have := hall top (List.mem_cons_self _ _)
      subst this
      simp [cleanStep]

theorem foldl_reverse_NF {r : Bool} (st : List (List Char)) (h : NF r st) :
    st.reverse.foldl (cleanStep r) [] = st := by
  induction st with
  | nil => rfl
  | cons e t ih =>
    rw [List.reverse_cons, List.foldl_append, ih h.2]
    simp only [List.foldl_cons, List.foldl_nil]
    exact cleanStep_of_NF_cons h

theorem isRooted_joinSlash {l : List (List Char)} (h : ∀ e ∈ l, '/' ∉ e ∧ e ≠ []) :
    isRooted (joinSlash l) = false := by
  cases l with
  | nil => rfl
  | cons a t =>
    have ha := h a (List.mem_cons_self _ _)
    cases a with
    | nil => exact absurd rfl ha.2
    | cons c cs =>
      have hc : c ≠ '/' := fun hh => ha.1 (by simp [hh])
      cases t with
      | nil => simp [joinSlash, isRooted, hc]
      | cons b t => simp [joinSlash, isRooted, hc]

/-- Cleaning a cleaned path gives the same path. -/
theorem stack_render {r : Bool} {st : List (List Char)} (h : NF r st) :
    (splitSlash (renderPath r st)).foldl (cleanStep r) [] = st ∧
      isRooted (renderPath r st) = r := by
  have hm := NF_mem h
  have hm1 : ∀ e ∈ st.reverse, '/' ∉ e := fun e he => (hm e (List.mem_reverse.1 he)).1
  have hm2 : ∀ e ∈ st.reverse, '/' ∉ e ∧ e ≠ [] := fun e he => hm e (List.mem_reverse.1 he)
  cases r with
  | true =>
    refine ⟨?_, by simp [renderPath, isRooted]⟩
    by_cases hs : st = []
    · subst hs; simp [renderPath, joinSlash, splitSlash, cleanStep]
    · have hr : st.reverse ≠ [] := by simpa using hs
      have : splitSlash (renderPath true st) = [] :: st.reverse := by
        simp [renderPath, splitSlash, splitSlash_joinSlash _ hr hm1]
      rw [this]
      simp only [List.foldl_cons]
      rw [cleanStep_skip _ _ (Or.inl rfl)]
      exact foldl_reverse_NF st h
  | false =>
    by_cases hs : st = []
    · subst hs; simp [renderPath, splitSlash, cleanStep, isRooted]
    · have hr : st.reverse ≠ [] := by simpa using hs
      have h1 : renderPath false st = joinSlash st.reverse := by simp [renderPath, hs]
      rw [h1, splitSlash_joinSlash _ hr hm1]
      exact ⟨foldl_reverse_NF st h, isRooted_joinSlash hm2⟩

theorem joinSlash_ne_nil {l : List (List Char)} (hl : l ≠ []) (h : ∀ e ∈ l, '/' ∉ e ∧ e ≠ []) :
    joinSlash l ≠ [] := by
  cases l with
  | nil => exact absurd rfl hl
  | cons a t =>
    have ha := (h a (List.mem_cons_self _ _)).2
    cases t with
    | nil => simpa [joinSlash] using ha
    | cons b t => simp [joinSlash]

theorem isRooted_append {a : List Char} (b : List Char) (h : a ≠ []) :
    isRooted (a ++ b) = isRooted a := by
  cases a with
  | nil => exact absurd rfl h
  | cons c cs => rfl

theorem isRooted_noslash {e : List Char} (h : '/' ∉ e) : isRooted e = false := by
  cases e with
  | nil => rfl
  | cons c cs =>
    have hc : c ≠ '/' := fun hh => h (by simp [hh])
    simp [isRooted, hc]

theorem renderPath_ne_nil {r : Bool} {st : List (List Char)} (h : NF r st) :
    renderPath r st ≠ [] := by
  cases r with
  | true => simp [renderPath]
  | false =>
    by_cases hs : st = []
    · simp [renderPath, hs]
    · have hr : st.reverse ≠ [] := by simpa using hs
      simp only [renderPath, hs, if_false]
      exact joinSlash_ne_nil hr (fun e he => NF_mem h e (List.mem_reverse.1 he))

theorem renderPath_cons (r : Bool) (e : List Char) (st : List (List Char)) :
    renderPath r (e :: st) = pathPre r st ++ e := by
  by_cases hs : st = []
  · subst hs
    cases r <;> simp [renderPath, pathPre, joinSlash]
  · have hr : st.reverse ≠ [] := by simpa using hs
    cases r <;>
      simp [renderPath, pathPre, hs, List.reverse_cons, joinSlash_append_single _ _ hr]

/-- The kept elements and rootedness of a cleaned directory followed by one more
element. -/
theorem pre_stack {r : Bool} {st : List (List Char)} {e : List Char} (h : NF r st)
    (he : '/' ∉ e) :
    pathStack (pathPre r st ++ e) = cleanStep r st e ∧ isRooted (pathPre r st ++ e) = r := by
  have key : (splitSlash (pathPre r st ++ e)).foldl (cleanStep r) [] = cleanStep r st e ∧
      isRooted (pathPre r st ++ e) = r := by
    by_cases hs : st = []
    · subst hs
      cases r with
      | true =>
        simp [pathPre, splitSlash, splitSlash_noslash he, isRooted, cleanStep_skip]
      | false =>
        simp [pathPre, splitSlash_noslash he, isRooted_noslash he]
    · have h1 : pathPre r st ++ e = renderPath r st ++ '/' :: e := by simp [pathPre, hs]
      rw [h1, splitSlash_append_slash, splitSlash_noslash he, List.foldl_append,
        (stack_render h).1, isRooted_append _ (renderPath_ne_nil h), (stack_render h).2]
      simp
  refine ⟨?_, key.2⟩
  unfold pathStack
  rw [key.2]; exact key.1

theorem pathStack_nil : pathStack [] = [] := by
  simp [pathStack, splitSlash, cleanStep]

theorem clean_eq (s : List Char) : clean s = renderPath (isRooted s) (pathStack s) := by
  by_cases hs : s = []
  · subst hs; simp [clean, pathStack_nil, renderPath, isRooted]
  · simp [clean, hs]

theorem pathStack_render {r : Bool} {st : List (List Char)} (h : NF r st) :
    pathStack (renderPath r st) = st ∧ isRooted (renderPath r st) = r := by
  refine ⟨?_, (stack_render h).2⟩
  unfold pathStack
  rw [(stack_render h).2]; exact (stack_render h).1

/-- The `Join` of a directory and a slash-free, non-empty element, from the kept
elements of the directory. -/
theorem join_eq (d : List Char) {e : List Char} (he : '/' ∉ e) (hne : e ≠ []) :
    (if d = [] then (if e = [] then [] else clean e) else clean (d ++ '/' :: e)) =
      renderPath (isRooted d) (cleanStep (isRooted d) (pathStack d) e) := by
  by_cases hd : d = []
  · subst hd
    simp only [if_true, hne, if_false, clean_eq, pathStack_nil]
    have h1 : isRooted e = false := isRooted_noslash he
    have h2 : pathStack e = cleanStep false [] e := by
      unfold pathStack; rw [h1, splitSlash_noslash he]; rfl
    rw [h1, h2]; rfl
  · simp only [hd, if_false, clean_eq]
    have h1 : isRooted (d ++ '/' :: e) = isRooted d := isRooted_append _ hd
    rw [h1]
    congr 1
    unfold pathStack
    rw [h1, splitSlash_append_slash, splitSlash_noslash he, List.foldl_append]
    simp

theorem filepathJoin_normal (d n : String) (hn : Normal n.data) :
    (filepathJoin d n).data = pathPre (isRooted d.data) (pathStack d.data) ++ n.data := by
  have := join_eq d.data hn.2.2.2 hn.1
  rw [cleanStep_normal _ _ hn, renderPath_cons] at this
  rw [← this]
  unfold filepathJoin
  by_cases hd : d.data = [] <;> simp [hd, hn.1]

theorem pathPre_shape (r : Bool) (st : List (List Char)) :
    pathPre r st = [] ∨ ∃ y, pathPre r st = y ++ ['/'] := by
  unfold pathPre
  by_cases hs : st = []
  · cases r
    · left; simp [hs]
    · right; exact ⟨[], by simp [hs]⟩
  · right; exact ⟨renderPath r st, by simp [hs]⟩

theorem dropWhile_append_all {p : Char → Bool} (a b : List Char) (h : ∀ c ∈ a, p c = true) :
    (a ++ b).dropWhile p = b.dropWhile p := by
  induction a with
  | nil => rfl
  | cons c cs ih =>
    have hc := h c (List.mem_cons_self _ _)
    simp only [List.cons_append, List.dropWhile_cons, hc, if_true]
    exact ih (fun x hx => h x (List.mem_cons_of_mem _ hx))

theorem dirPrefix_pre (r : Bool) (st : List (List Char)) {e : List Char} (he : '/' ∉ e) :
    dirPrefix (pathPre r st ++ e) = pathPre r st := by
  unfold dirPrefix
  rw [List.reverse_append, dropWhile_append_all]
  · rcases pathPre_shape r st with h | ⟨y, h⟩
    · rw [h]; rfl
    · rw [h]; simp [List.dropWhile]
  · intro c hc
    have : c ≠ '/' := fun hh => he (by rw [← hh]; exact List.mem_reverse.1 hc)
    simpa using this

theorem clean_pathPre {r : Bool} {st : List (List Char)} (h : NF r st) :
    clean (pathPre r st) = renderPath r st := by
  have := pre_stack (e := []) h (by simp)
  rw [List.append_nil] at this
  rw [clean_eq, this.1, this.2, cleanStep_skip _ _ (Or.inl rfl)]

theorem filepathDir_pre {r : Bool} {st : List (List Char)} (h : NF r st) {e : List Char}
    (he : '/' ∉ e) : filepathDir ⟨pathPre r st ++ e⟩ = ⟨renderPath r st⟩ := by
  unfold filepathDir
  rw [dirPrefix_pre r st he, clean_pathPre h]

theorem destName_data (n : String) :
    (destName n).data =
      if ['d', 'o', 't', '.'] <+: n.data then '.' :: n.data.drop 4 else n.data := by
  unfold destName trimPrefix hasPrefix
  have h : ("dot." : String).data = ['d', 'o', 't', '.'] := rfl
  rw [h]
  by_cases hp : ['d', 'o', 't', '.'] <+: n.data
  · have : List.isPrefixOf ['d', 'o', 't', '.'] n.data = true := List.isPrefixOf_iff_prefix.2 hp
    simp [this, hp, String.data_append]
  · have : List.isPrefixOf ['d', 'o', 't', '.'] n.data = false := by
      rw [Bool.eq_false_iff]; intro hh; exact hp (List.isPrefixOf_iff_prefix.1 hh)
    simp [this, hp]

theorem destName_normal {n : String} (h : plainName n) : Normal (destName n).data := by
  obtain ⟨⟨h1, h2, h3, h4⟩, h5, h6⟩ := h
  rw [destName_data]
  by_cases hp : ['d', 'o', 't', '.'] <+: n.data
  · rw [if_pos hp]
    obtain ⟨r, hr⟩ := hp
    have hd : n.data.drop 4 = r := by rw [← hr]; rfl
    rw [hd]
    have hs : '/' ∉ r := fun hh => h2 (by rw [← hr]; simp [hh])
    refine ⟨by simp, ?_, ?_, ?_⟩
    · intro hh
      have : r = [] := by simpa using hh
      subst this
      exact h5 (String.ext_iff.2 (by rw [← hr]; rfl))
    · intro hh
      have : r = ['.'] := by simpa using hh
      subst this
      exact h6 (String.ext_iff.2 (by rw [← hr]; rfl))
    · intro hh
      rcases List.mem_cons.1 hh with h7 | h7
      · exact absurd h7 (by decide)
      · exact hs h7
  · rw [if_neg hp]; exact ⟨h1, h3, h4, h2⟩

theorem embedName_plain {n : String} (h : embedName n) : plainName n := by
  obtain ⟨h1, h2, h3⟩ := h
  refine ⟨⟨h1, h2, ?_, ?_⟩, ?_, ?_⟩
  · intro hh; rw [hh] at h3; exact h3 rfl
  · intro hh; rw [hh] at h3; exact h3 rfl
  · intro hh; rw [hh] at h3; exact h3 rfl
  · intro hh; rw [hh] at h3; exact h3 rfl

theorem isSuffixOf_dot_drop (r : List Char) :
    List.isSuffixOf ['.', 't', 'm', 'p', 'l'] ('.' :: r) =
      List.isSuffixOf ['.', 't', 'm', 'p', 'l'] (['d', 'o', 't', '.'] ++ r) := by
  simp only [List.isSuffixOf, List.reverse_cons, List.reverse_append, List.reverse_nil,
    List.nil_append, List.cons_append, List.append_assoc]
  generalize r.reverse = u
  rcases u with _ | ⟨a, _ | ⟨b, _ | ⟨c, _ | ⟨d, _ | ⟨e, u⟩⟩⟩⟩⟩ <;>
    simp [List.isPrefixOf]

theorem hasSuffix_destName (n : String) :
    hasSuffix (destName n) ".tmpl" = hasSuffix n ".tmpl" := by
  unfold hasSuffix
  have h : (".tmpl" : String).data = ['.', 't', 'm', 'p', 'l'] := rfl
  rw [h, destName_data]
  by_cases hp : ['d', 'o', 't', '.'] <+: n.data
  · rw [if_pos hp]
    obtain ⟨r, hr⟩ := hp
    have hd : n.data.drop 4 = r := by rw [← hr]; rfl
    rw [hd, ← hr]
    exact isSuffixOf_dot_drop r
  · rw [if_neg hp]

/-- Whether the joined path ends in `.tmpl` is decided by its last element. -/
theorem suffix_pre (r : Bool) (st : List (List Char)) (e : List Char) :
    ['.', 't', 'm', 'p', 'l'] <:+ pathPre r st ++ e ↔ ['.', 't', 'm', 'p', 'l'] <:+ e := by
  constructor
  · rintro ⟨t, ht⟩
    rcases List.append_eq_append_iff.1 ht with ⟨a, h1, h2⟩ | ⟨c, h1, h2⟩
    · -- pathPre = t ++ a, ".tmpl" = a ++ e
      by_cases ha : a = []
      · subst ha; exact ⟨[], by simpa using h2⟩
      · exfalso
        rcases pathPre_shape r st with hp | ⟨y, hp⟩
        · rw [hp] at h1
          have := List.append_eq_nil.1 h1.symm
          exact ha this.2
        · rw [hp] at h1
          obtain ⟨a1, z, hz⟩ : ∃ a1 z, a = a1 ++ [z] := by
            rcases List.eq_nil_or_concat a with h0 | ⟨a1, z, h0⟩
            · exact absurd h0 ha
            · exact ⟨a1, z, by simpa using h0⟩
          have h3 : y ++ ['/'] = (t ++ a1) ++ [z] := by rw [h1, hz, List.append_assoc]
          have h4 := (List.append_inj' h3 rfl).2
          have hm : '/' ∈ a := by
            rw [hz]
            have : z = '/' := by simpa using h4.symm
            simp [this]
          have : '/' ∈ ['.', 't', 'm', 'p', 'l'] := by rw [h2]; simp [hm]
          exact absurd this (by decide)
    · exact ⟨c, h2.symm⟩
  · rintro ⟨t, ht⟩
    exact ⟨pathPre r st ++ t, by rw [List.append_assoc, ht]⟩

theorem hasSuffix_mk_pre (r : Bool) (st : List (List Char)) (e : List Char) :
    hasSuffix ⟨pathPre r st ++ e⟩ ".tmpl" = hasSuffix ⟨e⟩ ".tmpl" := by
  unfold hasSuffix
  have h : (".tmpl" : String).data = ['.', 't', 'm', 'p', 'l'] := rfl
  rw [h, Bool.eq_iff_iff, List.isSuffixOf_iff_suffix, List.isSuffixOf_iff_suffix]
  exact suffix_pre r st e

theorem trimSuffix_of_suffix {s : String} (h : hasSuffix s ".tmpl" = true) :
    ∃ b, s.data = b ++ ['.', 't', 'm', 'p', 'l'] ∧ trimSuffix s ".tmpl" = ⟨b⟩ := by
  unfold hasSuffix at h
  obtain ⟨b, hb⟩ := List.isSuffixOf_iff_suffix.1 h
  refine ⟨b, hb.symm, ?_⟩
  unfold trimSuffix hasSuffix
  rw [if_pos h, ← hb]
  have h5 : (".tmpl" : String).data = ['.', 't', 'm', 'p', 'l'] := rfl
  simp [h5]

/-- Removing `.tmpl` from a joined path removes it from the last element. -/
theorem outPath_pre (r : Bool) (st : List (List Char)) (e : List Char) :
    outPath ⟨pathPre r st ++ e⟩ = ⟨pathPre r st ++ (outPath ⟨e⟩).data⟩ := by
  unfold outPath
  rw [hasSuffix_mk_pre]
  by_cases hs : hasSuffix ⟨e⟩ ".tmpl" = true
  · have hs1 : hasSuffix ⟨pathPre r st ++ e⟩ ".tmpl" = true := by rw [hasSuffix_mk_pre]; exact hs
    obtain ⟨b1, hb1, ht1⟩ := trimSuffix_of_suffix hs1
    obtain ⟨b2, hb2, ht2⟩ := trimSuffix_of_suffix hs
    rw [if_pos hs, if_pos hs, ht1, ht2]
    apply String.ext_iff.2
    simp only at hb1 hb2 ⊢
    rw [hb2, ← List.append_assoc] at hb1
    exact List.append_cancel_right hb1.symm
  · rw [if_neg hs, if_neg hs]

theorem outPath_data_sub (n : String) : ∃ t, n.data = (outPath n).data ++ t := by
  unfold outPath
  by_cases hs : hasSuffix n ".tmpl" = true
  · obtain ⟨b, hb, ht⟩ := trimSuffix_of_suffix hs
    rw [if_pos hs, ht]
    exact ⟨_, hb⟩
  · rw [if_neg hs]; exact ⟨[], by simp⟩

/-! ## Facts about `renderFile` -/

variable {Data : Type}

theorem fileAt_cons_self (fs : List (String × String)) (p c : String) (d : List String)
    (l : List Event) : fileAt { dirs := d, files := (p, c) :: fs, log := l } p = some c := by
  simp [fileAt, List.lookup]

theorem fileAt_cons_ne (fs : List (String × String)) (p q c : String) (d d1 : List String)
    (l l1 : List Event) (h : p ≠ q) :
    fileAt { dirs := d, files := (q, c) :: fs, log := l } p =
      fileAt { dirs := d1, files := fs, log := l1 } p := by
  have : (p == q) = false := by simpa using h
  simp [fileAt, List.lookup, this]

theorem empty_append (b : String) : "" ++ b = b := by
  apply String.ext_iff.2
  simp [String.data_append]

/-- The four ways the common tail of `renderFile` can end. -/
theorem emit_cases (env : Env Data) (path bytes : String) (fin : Option Err) (s s1 : DestFS)
    (r : Option Err) (h : emit env path bytes fin s = (s1, r)) :
    (∃ e, env.mkdirAllErr s (filepathDir path) = some e ∧
        s1 = { s with log := .mkdirFail (filepathDir path) e :: s.log } ∧
        r = some (wrapPermission e (filepathDir path))) ∨
    (env.mkdirAllErr s (filepathDir path) = none ∧
      ∃ e, env.openErr (afterMkdir s path) path = some e ∧
        s1 = { afterMkdir s path with log := .openFail path e :: (afterMkdir s path).log } ∧
        r = some (wrapPermission e path)) ∨
    (env.mkdirAllErr s (filepathDir path) = none ∧
      env.openErr (afterMkdir s path) path = none ∧
      ∃ done e, env.writeErr (afterOpen s path) path bytes = some (done, e) ∧
        s1 = written s path done ∧ r = some e) ∨
    (env.mkdirAllErr s (filepathDir path) = none ∧
      env.openErr (afterMkdir s path) path = none ∧
      env.writeErr (afterOpen s path) path bytes = none ∧
      s1 = written s path bytes ∧ r = fin) := by
  unfold emit mkdirAll at h
  cases hm : env.mkdirAllErr s (filepathDir path) with
  | some e =>
    rw [hm] at h
    simp only [Prod.mk.injEq] at h
    exact Or.inl ⟨e, rfl, h.1.symm, h.2.symm⟩
  | none =>
    rw [hm] at h
    simp only at h
    change (match openFile env path (afterMkdir s path) with
      | (s2, some err) => (s2, some (wrapPermission err path))
      | (s2, none) =>
        match writeFile env path bytes s2 with
        | (s3, some err) => (s3, some err)
        | (s3, none) => (s3, fin)) = (s1, r) at h
    unfold openFile at h
    cases ho : env.openErr (afterMkdir s path) path with
    | some e =>
      rw [ho] at h
      simp only [Prod.mk.injEq] at h
      exact Or.inr (Or.inl ⟨rfl, e, rfl, h.1.symm, h.2.symm⟩)
    | none =>
      rw [ho] at h
      simp only at h
      change (match writeFile env path bytes (afterOpen s path) with
        | (s3, some err) => (s3, some err)
        | (s3, none) => (s3, fin)) = (s1, r) at h
      unfold writeFile at h
      have hf : fileAt (afterOpen s path) path = some "" := fileAt_cons_self _ _ _ _ _
      cases hw : env.writeErr (afterOpen s path) path bytes with
      | some de =>
        obtain ⟨done, e⟩ := de
        rw [hw] at h
        simp only [Prod.mk.injEq, hf, Option.getD_some, empty_append] at h
        exact Or.inr (Or.inr (Or.inl ⟨rfl, rfl, done, e, rfl, h.1.symm, h.2.symm⟩))
      | none =>
        rw [hw] at h
        simp only [Prod.mk.injEq, hf, Option.getD_some, empty_append] at h
        exact Or.inr (Or.inr (Or.inr ⟨rfl, rfl, rfl, h.1.symm, h.2.symm⟩))

/-- Both branches of `renderFile` end with the same steps. -/
theorem renderFile_eq (env : Env Data) (src dest : String) (data : Data) (s : DestFS) :
    renderFile env src dest data s =
      match env.readFile src with
      | .error err => (s, some err)
      | .ok content =>
        if hasSuffix dest ".tmpl" then
          match env.parseErr (filepathBase src) content with
          | some err => (s, some err)
          | none =>
            emit env (trimSuffix dest ".tmpl") (env.execute (filepathBase src) content data).1
              (env.execute (filepathBase src) content data).2 s
        else emit env dest content none s := by
  unfold renderFile emit
  cases env.readFile src with
  | error e => rfl
  | ok content =>
    simp only
    by_cases hs : hasSuffix dest ".tmpl" = true
    · rw [if_pos hs, if_pos hs]
    · simp only [hs, if_false]
      rcases mkdirAll env (filepathDir dest) s with ⟨s1, _ | e⟩
      · simp only
        rcases openFile env dest s1 with ⟨s2, _ | e⟩
        · simp only
          rcases writeFile env dest content s2 with ⟨s3, _ | e⟩ <;> rfl
        · rfl
      · rfl

/-! ## `renderFile` on the files of a walk -/

theorem string_eta (s : String) : (⟨s.data⟩ : String) = s := rfl

/-- The destination path of an entry whose destination name is an ordinary
element: the cleaned directory, a slash where one is needed, and that name. -/
theorem walk_dest_normal (destDir : String) {name : String} (h : Normal (destName name).data) :
    filepathJoin destDir (destName name) =
      ⟨pathPre (isRooted destDir.data) (pathStack destDir.data) ++ (destName name).data⟩ :=
  String.ext_iff.2 (filepathJoin_normal destDir (destName name) h)

theorem walk_dest (destDir : String) {name : String} (h : plainName name) :
    filepathJoin destDir (destName name) =
      ⟨pathPre (isRooted destDir.data) (pathStack destDir.data) ++ (destName name).data⟩ :=
  walk_dest_normal destDir (destName_normal h)

theorem walk_dest_suffix_normal (destDir : String) {name : String}
    (h : Normal (destName name).data) :
    hasSuffix (filepathJoin destDir (destName name)) ".tmpl" = hasSuffix name ".tmpl" := by
  rw [walk_dest_normal destDir h, hasSuffix_mk_pre, string_eta, hasSuffix_destName]

theorem walk_dest_suffix (destDir : String) {name : String} (h : plainName name) :
    hasSuffix (filepathJoin destDir (destName name)) ".tmpl" = hasSuffix name ".tmpl" :=
  walk_dest_suffix_normal destDir (destName_normal h)

/-- A name without a slash that ends in `.tmpl` has an ordinary element as its
destination name. -/
theorem destName_normal_of_tmpl {name : String} (hs : '/' ∉ name.data)
    (ht : hasSuffix name ".tmpl" = true) : Normal (destName name).data := by
  have h1 : hasSuffix (destName name) ".tmpl" = true := by rw [hasSuffix_destName]; exact ht
  obtain ⟨b, hb, _⟩ := trimSuffix_of_suffix h1
  have hlen : 5 ≤ (destName name).data.length := by rw [hb]; simp
  refine ⟨?_, ?_, ?_, ?_⟩
  · intro hh; rw [hh] at hlen; simp at hlen
  · intro hh; rw [hh] at hlen; simp at hlen
  · intro hh; rw [hh] at hlen; simp at hlen
  · rw [destName_data]
    by_cases hp : ['d', 'o', 't', '.'] <+: name.data
    · rw [if_pos hp]
      intro hm
      rcases List.mem_cons.1 hm with h2 | h2
      · exact absurd h2 (by decide)
      · exact hs (List.mem_of_mem_drop h2)
    · rw [if_neg hp]; exact hs

theorem trimSuffix_append {s : String} (h : hasSuffix s ".tmpl" = true) :
    s = trimSuffix s ".tmpl" ++ ".tmpl" ∧ trimSuffix s ".tmpl" ≠ s := by
  obtain ⟨b, hb, ht⟩ := trimSuffix_of_suffix h
  rw [ht]
  constructor
  · apply String.ext_iff.2
    rw [String.data_append, hb]
  · intro hh
    have := congrArg String.data hh
    rw [hb] at this
    have h2 := congrArg List.length this
    simp at h2

theorem renderFile_ok_tmpl (env : Env Data) (src dest : String) (data : Data) (s s1 : DestFS)
    (hs : hasSuffix dest ".tmpl" = true) (h : renderFile env src dest data s = (s1, none)) :
    ∃ content out, env.readFile src = .ok content ∧
      env.parseErr (filepathBase src) content = none ∧
      env.execute (filepathBase src) content data = (out, none) ∧
      s1 = written s (trimSuffix dest ".tmpl") out := by
  rw [renderFile_eq] at h
  cases hr : env.readFile src with
  | error e => rw [hr] at h; simp at h
  | ok content =>
    rw [hr] at h
    simp only [hs, if_true] at h
    cases hp : env.parseErr (filepathBase src) content with
    | some e => rw [hp] at h; simp at h
    | none =>
      rw [hp] at h
      simp only at h
      rcases emit_cases env _ _ _ s s1 none h with ⟨e, _, _, h3⟩ | ⟨_, e, _, _, h3⟩ |
        ⟨_, _, d, e, _, _, h3⟩ | ⟨_, _, _, h4, h5⟩
      · simp at h3
      · simp at h3
      · simp at h3
      · exact ⟨content, (env.execute (filepathBase src) content data).1, rfl, hp,
          Prod.ext rfl h5.symm, h4⟩

theorem renderFile_ok_plain (env : Env Data) (src dest : String) (data : Data) (s s1 : DestFS)
    (hs : hasSuffix dest ".tmpl" = false) (h : renderFile env src dest data s = (s1, none)) :
    ∃ content, env.readFile src = .ok content ∧ s1 = written s dest content := by
  rw [renderFile_eq] at h
  cases hr : env.readFile src with
  | error e => rw [hr] at h; simp at h
  | ok content =>
    rw [hr] at h
    simp only [hs] at h
    rcases emit_cases env _ _ _ s s1 none h with ⟨e, _, _, h3⟩ | ⟨_, e, _, _, h3⟩ |
      ⟨_, _, d, e, _, _, h3⟩ | ⟨_, _, _, h4, _⟩
    · simp at h3
    · simp at h3
    · simp at h3
    · exact ⟨content, rfl, h4⟩

theorem fileAt_written_self (s : DestFS) (p b : String) : fileAt (written s p b) p = some b :=
  fileAt_cons_self _ _ _ _ _

theorem fileAt_written_ne (s : DestFS) (p q b : String) (h : q ≠ p) :
    fileAt (written s p b) q = fileAt s q := by
  unfold written
  rw [fileAt_cons_ne _ _ _ _ _ s.dirs _ s.log h, fileAt_cons_ne _ _ _ _ _ s.dirs _ s.log h]

/-- The parent directory made for an entry is not the destination path of the
entry itself. -/
theorem parent_ne_dest (destDir : String) {name : String} (hn : Normal (destName name).data) :
    filepathDir (outPath (filepathJoin destDir (destName name))) ≠
      filepathJoin destDir (destName name) := by
  have hnf := pathStack_NF destDir.data
  have hsub : '/' ∉ (outPath (destName name)).data := by
    obtain ⟨t, ht⟩ := outPath_data_sub (destName name)
    intro hm
    exact hn.2.2.2 (by rw [ht]; exact List.mem_append_left _ hm)
  rw [walk_dest_normal destDir hn, outPath_pre, string_eta, filepathDir_pre hnf hsub]
  intro hh
  have h1 := congrArg (fun p : String => pathStack p.data) hh
  simp only at h1
  rw [(pathStack_render hnf).1, (pre_stack hnf hn.2.2.2).1, cleanStep_normal _ _ hn] at h1
  have h2 := congrArg List.length h1
  simp at h2

/-- C1: for a file of the walk whose name (one path element, so without a slash)
ends in `.tmpl`, a `renderFile` that returns no error has read the file, parsed
it and executed it against the data without error, and leaves the destination
with the output as the content of the destination path without its one
trailing `.tmpl` (whatever was there before); the path with the `.tmpl` holds
what it held before, and is not the directory made. -/
theorem renderFile_template_entry (env : Env Data) (srcDir destDir name : String) (data : Data)
    (s s1 : DestFS) (hname : '/' ∉ name.data) (htmpl : hasSuffix name ".tmpl" = true)
    (hok : renderFile env (pathJoin srcDir name) (filepathJoin destDir (destName name)) data s =
      (s1, none)) :
    ∃ content out,
      env.readFile (pathJoin srcDir name) = .ok content ∧
      env.parseErr (filepathBase (pathJoin srcDir name)) content = none ∧
      env.execute (filepathBase (pathJoin srcDir name)) content data = (out, none) ∧
      filepathJoin destDir (destName name) =
        trimSuffix (filepathJoin destDir (destName name)) ".tmpl" ++ ".tmpl" ∧
      s1 = written s (trimSuffix (filepathJoin destDir (destName name)) ".tmpl") out ∧
      fileAt s1 (trimSuffix (filepathJoin destDir (destName name)) ".tmpl") = some out ∧
      fileAt s1 (filepathJoin destDir (destName name)) =
        fileAt s (filepathJoin destDir (destName name)) ∧
      filepathDir (trimSuffix (filepathJoin destDir (destName name)) ".tmpl") ≠
        filepathJoin destDir (destName name) := by
  have hn := destName_normal_of_tmpl hname htmpl
  have hsuf : hasSuffix (filepathJoin destDir (destName name)) ".tmpl" = true := by
    rw [walk_dest_suffix_normal destDir hn]; exact htmpl
  obtain ⟨content, out, h1, h2, h3, h4⟩ := renderFile_ok_tmpl env _ _ data s s1 hsuf hok
  obtain ⟨h5, h6⟩ := trimSuffix_append hsuf
  refine ⟨content, out, h1, h2, h3, h5, h4, ?_, ?_, ?_⟩
  · rw [h4]; exact fileAt_written_self _ _ _
  · rw [h4]; exact fileAt_written_ne _ _ _ _ (Ne.symm h6)
  · have h7 := parent_ne_dest destDir hn
    rw [show outPath (filepathJoin destDir (destName name)) =
      trimSuffix (filepathJoin destDir (destName name)) ".tmpl" from by simp [outPath, hsuf]] at h7
    exact h7

/-- C1, on the sample directory: `t/a.tmpl` is rendered to `out/a`. -/
theorem renderFile_template_entry_witness :
    ∃ content out,
      demoEnv.readFile (pathJoin "t" "a.tmpl") = .ok content ∧
      demoEnv.parseErr (filepathBase (pathJoin "t" "a.tmpl")) content = none ∧
      demoEnv.execute (filepathBase (pathJoin "t" "a.tmpl")) content "World" = (out, none) ∧
      filepathJoin "out" (destName "a.tmpl") =
        trimSuffix (filepathJoin "out" (destName "a.tmpl")) ".tmpl" ++ ".tmpl" ∧
      written emptyFS "out/a" "Hello World" =
        written emptyFS (trimSuffix (filepathJoin "out" (destName "a.tmpl")) ".tmpl") out ∧
      fileAt (written emptyFS "out/a" "Hello World")
        (trimSuffix (filepathJoin "out" (destName "a.tmpl")) ".tmpl") = some out ∧
      fileAt (written emptyFS "out/a" "Hello World") (filepathJoin "out" (destName "a.tmpl")) =
        fileAt emptyFS (filepathJoin "out" (destName "a.tmpl")) ∧
      filepathDir (trimSuffix (filepathJoin "out" (destName "a.tmpl")) ".tmpl") ≠
        filepathJoin "out" (destName "a.tmpl") :=
  renderFile_template_entry demoEnv "t" "out" "a.tmpl" "World" emptyFS
    (written emptyFS "out/a" "Hello World") (by decide) (by decide) (by decide)

/-- C2: for a file of the walk whose name (a name an `embed.FS` can hold) does
not end in `.tmpl`, a `renderFile` that returns no error has read the file and
leaves the destination with exactly the bytes read as the content of the
destination path, for every data and every earlier content. -/
theorem renderFile_static_entry (env : Env Data) (srcDir destDir name : String) (data : Data)
    (s s1 : DestFS) (hname : embedName name) (hstatic : hasSuffix name ".tmpl" = false)
    (hok : renderFile env (pathJoin srcDir name) (filepathJoin destDir (destName name)) data s =
      (s1, none)) :
    ∃ content,
      env.readFile (pathJoin srcDir name) = .ok content ∧
      s1 = written s (filepathJoin destDir (destName name)) content ∧
      fileAt s1 (filepathJoin destDir (destName name)) = some content := by
  have hsuf : hasSuffix (filepathJoin destDir (destName name)) ".tmpl" = false := by
    rw [walk_dest_suffix destDir (embedName_plain hname)]; exact hstatic
  obtain ⟨content, h1, h2⟩ := renderFile_ok_plain env _ _ data s s1 hsuf hok
  exact ⟨content, h1, h2, by rw [h2]; exact fileAt_written_self _ _ _⟩

/-- C2, on the sample directory: `t/dot.env` is copied to `out/.env`, over the
content that was there. -/
theorem renderFile_static_entry_witness :
    ∃ content,
      demoEnv.readFile (pathJoin "t" "dot.env") = .ok content ∧
      written { dirs := [], files := [("out/.env", "OLD")], log := [] } "out/.env" "KEY=1" =
        written { dirs := [], files := [("out/.env", "OLD")], log := [] }
          (filepathJoin "out" (destName "dot.env")) content ∧
      fileAt (written { dirs := [], files := [("out/.env", "OLD")], log := [] } "out/.env" "KEY=1")
        (filepathJoin "out" (destName "dot.env")) = some content :=
  renderFile_static_entry demoEnv "t" "out" "dot.env" "World"
    { dirs := [], files := [("out/.env", "OLD")], log := [] }
    (written { dirs := [], files := [("out/.env", "OLD")], log := [] } "out/.env" "KEY=1")
    (by decide) (by decide) (by decide)

/-- C10: when the source file cannot be read, or the destination path ends in
`.tmpl` and the content does not parse, `renderFile` returns that error and the
destination is what it was: no directory made, no file opened. -/
theorem renderFile_early_error (env : Env Data) (src dest : String) (data : Data) (s : DestFS)
    (e : Err)
    (h : env.readFile src = .error e ∨
      ∃ content, env.readFile src = .ok content ∧ hasSuffix dest ".tmpl" = true ∧
        env.parseErr (filepathBase src) content = some e) :
    renderFile env src dest data s = (s, some e) := by
  rw [renderFile_eq]
  rcases h with h | ⟨content, h1, h2, h3⟩
  · rw [h]
  · rw [h1]; simp only [h2, if_true]; rw [h3]

/-- C10, on the sample directory: `t/bad.tmpl` does not parse, and a
destination that held a file is left as it was. -/
theorem renderFile_early_error_witness :
    renderFile demoEnv "t/bad.tmpl" "out/bad.tmpl" "World"
        { dirs := ["out"], files := [("out/bad", "OLD")], log := [] } =
      ({ dirs := ["out"], files := [("out/bad", "OLD")], log := [] },
        some (.base "template: unclosed action" false)) :=
  renderFile_early_error demoEnv "t/bad.tmpl" "out/bad.tmpl" "World"
    { dirs := ["out"], files := [("out/bad", "OLD")], log := [] }
    (.base "template: unclosed action" false)
    (Or.inr ⟨"\x7b\x7b", by decide, by decide, by decide⟩)

/-- C5, as the code has it: for a template root that is a single file,
`RenderFS` is `renderFile` on the template root and the destination root, for
every bound; when it returns no error, the file was rendered through the
template engine to the destination root without its `.tmpl` if the destination
root ends in `.tmpl`, and copied as it is to the destination root otherwise. -/
theorem RenderFS_single_file (fuel : Nat) (env : Env Data) (templateRoot destRoot : String)
    (data : Data) (s : DestFS) (hstat : env.stat templateRoot = .ok false) :
    RenderFS fuel env templateRoot data destRoot s =
        some (renderFile env templateRoot destRoot data s) ∧
      ∀ s1, RenderFS fuel env templateRoot data destRoot s = some (s1, none) →
        if hasSuffix destRoot ".tmpl" = true then
          ∃ content out, env.readFile templateRoot = .ok content ∧
            env.parseErr (filepathBase templateRoot) content = none ∧
            env.execute (filepathBase templateRoot) content data = (out, none) ∧
            s1 = written s (trimSuffix destRoot ".tmpl") out
        else
          ∃ content, env.readFile templateRoot = .ok content ∧
            s1 = written s destRoot content := by
  have h0 : RenderFS fuel env templateRoot data destRoot s =
      some (renderFile env templateRoot destRoot data s) := by
    unfold RenderFS; rw [hstat]; rfl
  refine ⟨h0, ?_⟩
  intro s1 h1
  rw [h0] at h1
  have h2 : renderFile env templateRoot destRoot data s = (s1, none) := Option.some.inj h1
  by_cases hs : hasSuffix destRoot ".tmpl" = true
  · rw [if_pos hs]; exact renderFile_ok_tmpl env _ _ data s s1 hs h2
  · rw [if_neg hs]
    exact renderFile_ok_plain env _ _ data s s1 (by simpa using hs) h2

/-- C5 as amended, on the sample file `t/a.tmpl` with the destination root
`out/a.tmpl`. -/
theorem RenderFS_single_file_witness :
    RenderFS 0 demoEnv "t/a.tmpl" "World" "out/a.tmpl" emptyFS =
        some (renderFile demoEnv "t/a.tmpl" "out/a.tmpl" "World" emptyFS) ∧
      ∀ s1, RenderFS 0 demoEnv "t/a.tmpl" "World" "out/a.tmpl" emptyFS = some (s1, none) →
        if hasSuffix "out/a.tmpl" ".tmpl" = true then
          ∃ content out, demoEnv.readFile "t/a.tmpl" = .ok content ∧
            demoEnv.parseErr (filepathBase "t/a.tmpl") content = none ∧
            demoEnv.execute (filepathBase "t/a.tmpl") content "World" = (out, none) ∧
            s1 = written emptyFS (trimSuffix "out/a.tmpl" ".tmpl") out
        else
          ∃ content, demoEnv.readFile "t/a.tmpl" = .ok content ∧
            s1 = written emptyFS "out/a.tmpl" content :=
  RenderFS_single_file 0 demoEnv "t/a.tmpl" "out/a.tmpl" "World" emptyFS (by decide)

/-- C5 as stated fails: the single file `t/a.tmpl`, whose name ends in `.tmpl`,
is copied as it is to the destination root `out/a` (the template engine would
have given `Hello World`), and the single file `t/sub/b.txt`, whose name does
not end in `.tmpl`, is rendered when the destination root is `out/b.tmpl`. -/
theorem RenderFS_single_file_counterexample :
    (demoEnv.stat "t/a.tmpl" = .ok false ∧ hasSuffix "t/a.tmpl" ".tmpl" = true ∧
      RenderFS 0 demoEnv "t/a.tmpl" "World" "out/a" emptyFS =
        some (written emptyFS "out/a" "Hello {{.}}", none) ∧
      demoEnv.execute (filepathBase "t/a.tmpl") "Hello {{.}}" "World" = ("Hello World", none)) ∧
    (demoEnv.stat "t/sub/b.txt" = .ok false ∧ hasSuffix "t/sub/b.txt" ".tmpl" = false ∧
      demoEnv.readFile "t/sub/b.txt" = .ok "plain {{.}}" ∧
      RenderFS 0 demoEnv "t/sub/b.txt" "World" "out/b.tmpl" emptyFS =
        some (written emptyFS "out/b" "plain World", none)) := by
  decide

/-! ## The walk -/

theorem destName_eq_spec (name : String) : destName name = destNameSpec name := by
  apply String.ext_iff.2
  unfold destNameSpec
  split
  · rename_i rest h
    rw [destName_data, h]
    simp
  · rename_i h
    rw [destName_data, if_neg]
    rintro ⟨r, hr⟩
    exact h r hr.symm

theorem renderEntries_cons (recur : String → String → DestFS → Option (DestFS × Option Err))
    (env : Env Data) (srcDir destDir : String) (data : Data) (entry : DirEntry)
    (rest : List DirEntry) (s : DestFS) :
    renderEntries recur env srcDir destDir data (entry :: rest) s =
      match renderEntry recur env srcDir destDir data entry s with
      | none => none
      | some (s1, some err) => some (s1, some err)
      | some (s1, none) => renderEntries recur env srcDir destDir data rest s1 := by
  unfold renderEntry
  rw [← destName_eq_spec]
  conv => lhs; unfold renderEntries
  cases entry.isDir
  · simp only [Bool.false_eq_true, if_false]
    rcases renderFile env (pathJoin srcDir entry.name)
      (filepathJoin destDir (destName entry.name)) data s with ⟨s1, _ | e⟩ <;> rfl
  · simp only [if_true]

theorem renderEntries_append (recur : String → String → DestFS → Option (DestFS × Option Err))
    (env : Env Data) (srcDir destDir : String) (data : Data) (pre post : List DirEntry) :
    ∀ s, renderEntries recur env srcDir destDir data (pre ++ post) s =
      match renderEntries recur env srcDir destDir data pre s with
      | none => none
      | some (s1, some err) => some (s1, some err)
      | some (s1, none) => renderEntries recur env srcDir destDir data post s1 := by
  induction pre with
  | nil => intro s; simp [renderEntries]
  | cons e t ih =>
    intro s
    rw [List.cons_append, renderEntries_cons, renderEntries_cons]
    rcases renderEntry recur env srcDir destDir data e s with _ | ⟨s1, _ | err⟩
    · rfl
    · exact ih s1
    · rfl

theorem renderDir_succ (env : Env Data) (data : Data) (fuel : Nat) (srcDir destDir : String)
    (s : DestFS) :
    renderDir env data (fuel + 1) srcDir destDir s =
      match env.readDir srcDir with
      | .error err => some (s, some err)
      | .ok entries =>
        match mkdirAll env destDir s with
        | (s1, some err) => some (s1, some err)
        | (s1, none) =>
          renderEntries (renderDir env data fuel) env srcDir destDir data entries s1 := by
  conv => lhs; unfold renderDir

/-- A rule for properties of a walk: a relation `R` between the destination
before and after, and the error, that holds of doing nothing, composes along
steps without error, and holds of `mkdirAll` and of `renderFile` wherever the
context `I` of source and destination directory holds, holds of `renderDir`. -/
theorem walk_rule (env : Env Data) (data : Data) (I : String → String → Prop)
    (R : DestFS → DestFS → Option Err → Prop)
    (hrefl : ∀ s r, R s s r)
    (htrans : ∀ s s1 s2 r, R s s1 none → R s1 s2 r → R s s2 r)
    (hmk : ∀ src dst s s1 r, I src dst → mkdirAll env dst s = (s1, r) → R s s1 r)
    (hfile : ∀ src dst es e s s1 r, I src dst → env.readDir src = .ok es → e ∈ es →
      e.isDir = false →
      renderFile env (pathJoin src e.name) (filepathJoin dst (destName e.name)) data s = (s1, r) →
      R s s1 r)
    (hctx : ∀ src dst es e, I src dst → env.readDir src = .ok es → e ∈ es → e.isDir = true →
      I (pathJoin src e.name) (filepathJoin dst (destName e.name))) :
    ∀ fuel src dst s s1 r, I src dst → renderDir env data fuel src dst s = some (s1, r) →
      R s s1 r := by
  intro fuel
  induction fuel with
  | zero => intro src dst s s1 r _ h; simp [renderDir] at h
  | succ fuel ih =>
    intro src dst s s1 r hI h
    rw [renderDir_succ] at h
    cases hr : env.readDir src with
    | error e =>
      rw [hr] at h
      simp only [Option.some.injEq, Prod.mk.injEq] at h
      rw [← h.1]; exact hrefl s r
    | ok es =>
      rw [hr] at h
      simp only at h
      rcases hm : mkdirAll env dst s with ⟨s0, _ | e⟩
      · rw [hm] at h
        simp only at h
        have h0 : R s s0 none := hmk src dst s s0 none hI hm
        have key : ∀ l : List DirEntry, (∀ e ∈ l, e ∈ es) → ∀ a b r,
            renderEntries (renderDir env data fuel) env src dst data l a = some (b, r) →
            R a b r := by
          intro l
          induction l with
          | nil =>
            intro _ a b r hl
            simp only [renderEntries, Option.some.injEq, Prod.mk.injEq] at hl
            rw [← hl.1]; exact hrefl a r
          | cons e t iht =>
            intro hsub a b r hl
            rw [renderEntries_cons] at hl
            have he : e ∈ es := hsub e (List.mem_cons_self _ _)
            have hstep : ∀ a1 r1, renderEntry (renderDir env data fuel) env src dst data e a =
                some (a1, r1) → R a a1 r1 := by
              intro a1 r1 h1
              unfold renderEntry at h1
              rw [← destName_eq_spec] at h1
              by_cases hd : e.isDir = true
              · simp only [hd, if_true] at h1
                exact ih _ _ a a1 r1 (hctx src dst es e hI hr he hd) h1
              · have hd1 : e.isDir = false := by simpa using hd
                rw [hd1] at h1
                simp only [Bool.false_eq_true, if_false, Option.some.injEq] at h1
                exact hfile src dst es e a a1 r1 hI hr he hd1 h1
            rcases hre : renderEntry (renderDir env data fuel) env src dst data e a with
              _ | ⟨a1, _ | err⟩
            · rw [hre] at hl; simp at hl
            · rw [hre] at hl
              simp only at hl
              exact htrans a a1 b r (hstep a1 none hre)
                (iht (fun x hx => hsub x (List.mem_cons_of_mem _ hx)) a1 b r hl)
            · rw [hre] at hl
              simp only [Option.some.injEq, Prod.mk.injEq] at hl
              rw [← hl.1, ← hl.2]; exact hstep a1 (some err) hre
        exact htrans s s0 s1 r h0 (key es (fun e he => he) s0 s1 r h)
      · rw [hm] at h
        simp only [Option.some.injEq, Prod.mk.injEq] at h
        rw [← h.1, ← h.2]
        exact hmk src dst s s0 (some e) hI hm


/-- A walk of a template tree of bounded depth returns, once the bound given to
`renderDir` is above the depth. -/
theorem renderDir_total (env : Env Data) (data : Data) (depth : String → Nat)
    (hdepth : ∀ src es e, env.readDir src = .ok es → e ∈ es → e.isDir = true →
      depth (pathJoin src e.name) < depth src) :
    ∀ fuel src dst s, depth src < fuel → ∃ res, renderDir env data fuel src dst s = some res := by
  intro fuel
  induction fuel with
  | zero => intro src _ _ h; exact absurd h (Nat.not_lt_zero _)
  | succ fuel ih =>
    intro src dst s hlt
    rw [renderDir_succ]
    cases hr : env.readDir src with
    | error e => exact ⟨_, rfl⟩
    | ok es =>
      simp only
      rcases mkdirAll env dst s with ⟨s0, _ | e⟩
      · simp only
        have key : ∀ l : List DirEntry, (∀ e ∈ l, e ∈ es) → ∀ a,
            ∃ res, renderEntries (renderDir env data fuel) env src dst data l a = some res := by
          intro l
          induction l with
          | nil => intro _ a; exact ⟨_, rfl⟩
          | cons e t iht =>
            intro hsub a
            rw [renderEntries_cons]
            have hstep : ∃ res, renderEntry (renderDir env data fuel) env src dst data e a =
                some res := by
              unfold renderEntry
              cases hd : e.isDir with
              | false => exact ⟨_, rfl⟩
              | true =>
                simp only [if_true]
                have := hdepth src es e hr (hsub e (List.mem_cons_self _ _)) hd
                exact ih _ _ a (by omega)
            obtain ⟨⟨a1, r1⟩, hres⟩ := hstep
            rw [hres]
            cases r1 with
            | none => exact iht (fun x hx => hsub x (List.mem_cons_of_mem _ hx)) a1
            | some err => exact ⟨_, rfl⟩
        exact key es (fun _ h => h) s0
      · exact ⟨_, rfl⟩

/-- A result of the walk does not depend on the bound: a larger bound gives the
same result. -/
theorem renderDir_mono (env : Env Data) (data : Data) :
    ∀ fuel src dst s res, renderDir env data fuel src dst s = some res →
      renderDir env data (fuel + 1) src dst s = some res := by
  intro fuel
  induction fuel with
  | zero => intro src dst s res h; simp [renderDir] at h
  | succ fuel ih =>
    intro src dst s res h
    rw [renderDir_succ] at h ⊢
    cases hr : env.readDir src with
    | error e => rw [hr] at h; exact h
    | ok es =>
      rw [hr] at h
      simp only at h ⊢
      rcases hm : mkdirAll env dst s with ⟨s0, _ | e⟩
      · rw [hm] at h
        simp only at h ⊢
        have key : ∀ l : List DirEntry, ∀ a res,
            renderEntries (renderDir env data fuel) env src dst data l a = some res →
            renderEntries (renderDir env data (fuel + 1)) env src dst data l a = some res := by
          intro l
          induction l with
          | nil => intro a res hl; simpa [renderEntries] using hl
          | cons e t iht =>
            intro a res hl
            rw [renderEntries_cons] at hl ⊢
            have hstep : ∀ r1, renderEntry (renderDir env data fuel) env src dst data e a =
                some r1 →
                renderEntry (renderDir env data (fuel + 1)) env src dst data e a = some r1 := by
              intro r1 h1
              unfold renderEntry at h1 ⊢
              cases hd : e.isDir with
              | false => rw [hd] at h1; exact h1
              | true =>
                rw [hd] at h1
                simp only [if_true] at h1 ⊢
                exact ih _ _ _ _ h1
            rcases hre : renderEntry (renderDir env data fuel) env src dst data e a with
              _ | ⟨a1, _ | err⟩
            · rw [hre] at hl; simp at hl
            · rw [hre] at hl
              rw [hstep _ hre]
              simp only at hl ⊢
              exact iht a1 res hl
            · rw [hre] at hl
              rw [hstep _ hre]
              exact hl
        exact key es s0 res h
      · rw [hm] at h; exact h

theorem lookup_mem {α : Type} (a : String) (l : List (String × α)) (b : α)
    (h : l.lookup a = some b) : (a, b) ∈ l := by
  induction l with
  | nil => simp [List.lookup] at h
  | cons x t ih =>
    obtain ⟨k, v⟩ := x
    rw [List.lookup_cons] at h
    by_cases hk : a == k
    · rw [hk] at h
      simp only [Option.some.injEq] at h
      have : a = k := by simpa using hk
      rw [this, h]; exact List.mem_cons_self _ _
    · have hk1 : (a == k) = false := by simpa using hk
      rw [hk1] at h
      exact List.mem_cons_of_mem _ (ih h)

theorem sampleEnv_readDir (dirs : List (String × List DirEntry)) (files : List (String × String))
    (src : String) (es : List DirEntry) (h : (sampleEnv dirs files).readDir src = .ok es) :
    (src, es) ∈ dirs := by
  simp only [sampleEnv] at h
  cases hl : dirs.lookup src with
  | none => rw [hl] at h; simp at h
  | some es1 =>
    rw [hl] at h
    simp only [Except.ok.injEq] at h
    rw [← h]; exact lookup_mem _ _ _ hl

theorem sampleEnv_forall (P : String → Prop) (dirs : List (String × List DirEntry))
    (files : List (String × String)) (h : ∀ p ∈ dirs, ∀ e ∈ p.2, P e.name) :
    ∀ src es, (sampleEnv dirs files).readDir src = .ok es → ∀ e ∈ es, P e.name :=
  fun src es hr e he => h (src, es) (sampleEnv_readDir dirs files src es hr) e he

theorem sampleEnv_depth (dirs : List (String × List DirEntry)) (files : List (String × String))
    (depth : String → Nat)
    (h : ∀ p ∈ dirs, ∀ e ∈ p.2, e.isDir = true → depth (pathJoin p.1 e.name) < depth p.1) :
    ∀ src es e, (sampleEnv dirs files).readDir src = .ok es → e ∈ es → e.isDir = true →
      depth (pathJoin src e.name) < depth src :=
  fun src es e hr he hd => h (src, es) (sampleEnv_readDir dirs files src es hr) e he hd

/-- With a bound above the depth of the template tree, `RenderFS` returns. -/
theorem RenderFS_total (env : Env Data) (data : Data) (templateRoot destRoot : String)
    (s : DestFS) (depth : String → Nat) (fuel : Nat)
    (hdepth : ∀ src es e, env.readDir src = .ok es → e ∈ es → e.isDir = true →
      depth (pathJoin src e.name) < depth src)
    (hfuel : depth templateRoot < fuel) :
    ∃ res, RenderFS fuel env templateRoot data destRoot s = some res := by
  unfold RenderFS
  cases env.stat templateRoot with
  | error e => exact ⟨_, rfl⟩
  | ok isDir =>
    cases isDir with
    | false => exact ⟨_, rfl⟩
    | true =>
      simp only [Bool.not_true, Bool.false_eq_true, if_false]
      exact renderDir_total env data depth hdepth fuel templateRoot destRoot s hfuel

theorem renderEntries_ok_iff (recur : String → String → DestFS → Option (DestFS × Option Err))
    (env : Env Data) (srcDir destDir : String) (data : Data) (l : List DirEntry) :
    ∀ s s1, renderEntries recur env srcDir destDir data l s = some (s1, none) ↔
      AllSucceed recur env srcDir destDir data l s s1 := by
  induction l with
  | nil =>
    intro s s1
    simp only [renderEntries, AllSucceed, Option.some.injEq, Prod.mk.injEq, and_true]
    exact eq_comm
  | cons e t ih =>
    intro s s1
    rw [renderEntries_cons]
    simp only [AllSucceed]
    rcases renderEntry recur env srcDir destDir data e s with _ | ⟨s2, _ | err⟩
    · simp
    · simp only [Option.some.injEq, Prod.mk.injEq, and_true, exists_eq_left']
      exact ih s2 s1
    · simp

/-- C3: in the loop of `renderDir`, once the entries before it have returned no
error, an entry is handled with the source path `path.Join(srcDir, name)` and
the destination path `filepath.Join(destDir, d)`, where `d` is `.` followed by
the rest of the name when the name starts with `dot.` (one leading `dot.` only)
and the name itself otherwise: a directory goes to `renderDir`, a file to
`renderFile`, and the loop goes on with the rest when that returns no error. -/
theorem renderDir_entry_destination
    (recur : String → String → DestFS → Option (DestFS × Option Err)) (env : Env Data)
    (srcDir destDir : String) (data : Data) (pre : List DirEntry) (entry : DirEntry)
    (rest : List DirEntry) (s s1 : DestFS)
    (hpre : renderEntries recur env srcDir destDir data pre s = some (s1, none)) :
    destName entry.name = destNameSpec entry.name ∧
    renderEntries recur env srcDir destDir data (pre ++ entry :: rest) s =
      match (if entry.isDir then
          recur (pathJoin srcDir entry.name) (filepathJoin destDir (destNameSpec entry.name)) s1
        else
          some (renderFile env (pathJoin srcDir entry.name)
            (filepathJoin destDir (destNameSpec entry.name)) data s1)) with
      | none => none
      | some (s2, some err) => some (s2, some err)
      | some (s2, none) => renderEntries recur env srcDir destDir data rest s2 := by
  refine ⟨destName_eq_spec _, ?_⟩
  rw [renderEntries_append, hpre]
  simp only
  rw [renderEntries_cons]
  rfl

/-- C6: `renderDir` returns no error exactly when the listing, the making of the
destination directory and every entry in listing order return no error; and
when the entries before one return no error and that one returns an error (a
file, or a nested directory with something failing inside), `renderDir` returns
that error with the destination as that entry left it: later entries are not
handled and nothing is undone. -/
theorem renderDir_first_error (env : Env Data) (data : Data) (fuel : Nat)
    (srcDir destDir : String) (s : DestFS) :
    (∀ s1, renderDir env data (fuel + 1) srcDir destDir s = some (s1, none) ↔
      ∃ entries s0, env.readDir srcDir = .ok entries ∧ mkdirAll env destDir s = (s0, none) ∧
        AllSucceed (renderDir env data fuel) env srcDir destDir data entries s0 s1) ∧
    (∀ pre entry rest s0 s1 s2 err,
      env.readDir srcDir = .ok (pre ++ entry :: rest) →
      mkdirAll env destDir s = (s0, none) →
      AllSucceed (renderDir env data fuel) env srcDir destDir data pre s0 s1 →
      renderEntry (renderDir env data fuel) env srcDir destDir data entry s1 =
        some (s2, some err) →
      renderDir env data (fuel + 1) srcDir destDir s = some (s2, some err)) := by
  constructor
  · intro s1
    rw [renderDir_succ]
    cases hr : env.readDir srcDir with
    | error e => simp
    | ok entries =>
      simp only
      rcases hm : mkdirAll env destDir s with ⟨s0, _ | e⟩
      · simp only [renderEntries_ok_iff]
        constructor
        · intro h; exact ⟨entries, s0, rfl, rfl, h⟩
        · rintro ⟨entries1, s01, h1, h2, h3⟩
          have h4 : entries1 = entries := by injection h1 with h1; exact h1.symm
          have h5 : s01 = s0 := by
            have := congrArg Prod.fst h2
            exact this.symm
          rw [h4, h5] at h3; exact h3
      · simp
  · intro pre entry rest s0 s1 s2 err hr hm hpre hent
    rw [renderDir_succ, hr]
    simp only
    rw [hm]
    simp only
    rw [renderEntries_append, (renderEntries_ok_iff _ _ _ _ _ _ _ _).2 hpre]
    simp only
    rw [renderEntries_cons, hent]

/-- C3, on the sample directory: after `a.tmpl`, the entry `dot.env` is handled
with the destination path `filepath.Join("out", ".env")`. -/
theorem renderDir_entry_destination_witness :
    destName "dot.env" = destNameSpec "dot.env" ∧
    renderEntries (renderDir demoEnv "World" 1) demoEnv "t" "out" "World"
        ([⟨"a.tmpl", false⟩] ++ ⟨"dot.env", false⟩ :: [⟨"sub", true⟩]) outMade =
      match (if (⟨"dot.env", false⟩ : DirEntry).isDir then
          renderDir demoEnv "World" 1 (pathJoin "t" "dot.env")
            (filepathJoin "out" (destNameSpec "dot.env")) (written outMade "out/a" "Hello World")
        else
          some (renderFile demoEnv (pathJoin "t" "dot.env")
            (filepathJoin "out" (destNameSpec "dot.env")) "World"
            (written outMade "out/a" "Hello World"))) with
      | none => none
      | some (s2, some err) => some (s2, some err)
      | some (s2, none) =>
        renderEntries (renderDir demoEnv "World" 1) demoEnv "t" "out" "World" [⟨"sub", true⟩] s2 :=
  renderDir_entry_destination (renderDir demoEnv "World" 1) demoEnv "t" "out" "World"
    [⟨"a.tmpl", false⟩] ⟨"dot.env", false⟩ [⟨"sub", true⟩] outMade
    (written outMade "out/a" "Hello World") (by decide)

/-- C6, on the sample directory with `out/sub/b.txt` refused: the walk returns
the error of the entry `sub`, after `a.tmpl` and `dot.env` and without `z.txt`. -/
theorem renderDir_first_error_witness :
    renderDir deniedEnv "World" 2 "t" "out" emptyFS =
      some (deniedFinal, some (wrapPermission deniedErr "out/sub/b.txt")) :=
  (renderDir_first_error deniedEnv "World" 1 "t" "out" emptyFS).2
    [⟨"a.tmpl", false⟩, ⟨"dot.env", false⟩] ⟨"sub", true⟩ [⟨"z.txt", false⟩] outMade
    (written (written outMade "out/a" "Hello World") "out/.env" "KEY=1") deniedFinal
    (wrapPermission deniedErr "out/sub/b.txt") (by decide) (by decide)
    ⟨written outMade "out/a" "Hello World", by decide,
      written (written outMade "out/a" "Hello World") "out/.env" "KEY=1", by decide, rfl⟩
    (by decide)

/-- The ways `renderFile` can end: nothing done (the file could not be read or
parsed), the parent directory not made, the file not opened, or the file
opened and some bytes written. -/
theorem renderFile_cases (env : Env Data) (src dest : String) (data : Data) (s s1 : DestFS)
    (r : Option Err) (h : renderFile env src dest data s = (s1, r)) :
    s1 = s ∨
    (∃ e, s1 = { s with log := .mkdirFail (filepathDir (outPath dest)) e :: s.log } ∧
      r = some (wrapPermission e (filepathDir (outPath dest)))) ∨
    (∃ e, s1 = { afterMkdir s (outPath dest) with
        log := .openFail (outPath dest) e :: (afterMkdir s (outPath dest)).log } ∧
      r = some (wrapPermission e (outPath dest))) ∨
    (env.openErr (afterMkdir s (outPath dest)) (outPath dest) = none ∧
      ∃ bytes, s1 = written s (outPath dest) bytes) := by
  rw [renderFile_eq] at h
  have key : ∀ bytes fin, emit env (outPath dest) bytes fin s = (s1, r) →
      (∃ e, s1 = { s with log := .mkdirFail (filepathDir (outPath dest)) e :: s.log } ∧
        r = some (wrapPermission e (filepathDir (outPath dest)))) ∨
      (∃ e, s1 = { afterMkdir s (outPath dest) with
          log := .openFail (outPath dest) e :: (afterMkdir s (outPath dest)).log } ∧
        r = some (wrapPermission e (outPath dest))) ∨
      (env.openErr (afterMkdir s (outPath dest)) (outPath dest) = none ∧
        ∃ bytes, s1 = written s (outPath dest) bytes) := by
    intro bytes fin he
    rcases emit_cases env _ _ _ s s1 r he with ⟨e, _, h2, h3⟩ | ⟨_, e, _, h2, h3⟩ |
      ⟨_, ho, d, e, _, h2, _⟩ | ⟨_, ho, _, h2, _⟩
    · exact Or.inl ⟨e, h2, h3⟩
    · exact Or.inr (Or.inl ⟨e, h2, h3⟩)
    · exact Or.inr (Or.inr ⟨ho, d, h2⟩)
    · exact Or.inr (Or.inr ⟨ho, bytes, h2⟩)
  cases hr : env.readFile src with
  | error e =>
    rw [hr] at h
    simp only [Prod.mk.injEq] at h
    exact Or.inl h.1.symm
  | ok content =>
    rw [hr] at h
    simp only at h
    by_cases hs : hasSuffix dest ".tmpl" = true
    · have hp : outPath dest = trimSuffix dest ".tmpl" := by simp [outPath, hs]
      rw [if_pos hs] at h
      cases hq : env.parseErr (filepathBase src) content with
      | some e =>
        rw [hq] at h
        simp only [Prod.mk.injEq] at h
        exact Or.inl h.1.symm
      | none =>
        rw [hq] at h
        simp only at h
        rw [← hp] at h
        exact Or.inr (key _ _ h)
    · have hp : outPath dest = dest := by simp [outPath, hs]
      rw [if_neg hs] at h
      rw [← hp] at h
      exact Or.inr (key _ _ h)

theorem failsWrapped_refl (s : DestFS) (r : Option Err) : FailsWrapped s s r :=
  ⟨[], rfl, by simp⟩

theorem failsWrapped_trans (s s1 s2 : DestFS) (r : Option Err) (h1 : FailsWrapped s s1 none)
    (h2 : FailsWrapped s1 s2 r) : FailsWrapped s s2 r := by
  obtain ⟨n1, e1, f1⟩ := h1
  obtain ⟨n2, e2, f2⟩ := h2
  refine ⟨n2 ++ n1, by rw [e2, e1, List.append_assoc], ?_⟩
  intro t e hte
  have hsplit : (Event.mkdirFail t e ∈ n2 ∨ Event.openFail t e ∈ n2) ∨
      (Event.mkdirFail t e ∈ n1 ∨ Event.openFail t e ∈ n1) := by
    rcases hte with h | h
    · rcases List.mem_append.1 h with h | h
      · exact Or.inl (Or.inl h)
      · exact Or.inr (Or.inl h)
    · rcases List.mem_append.1 h with h | h
      · exact Or.inl (Or.inr h)
      · exact Or.inr (Or.inr h)
  rcases hsplit with h | h
  · exact f2 t e h
  · exact absurd (f1 t e h) (by simp)

theorem failsWrapped_mkdirAll (env : Env Data) (dst : String) (s s1 : DestFS) (r : Option Err)
    (h : mkdirAll env dst s = (s1, r)) : FailsWrapped s s1 r := by
  unfold mkdirAll at h
  cases hm : env.mkdirAllErr s dst with
  | some e =>
    rw [hm] at h
    simp only [Prod.mk.injEq] at h
    refine ⟨[.mkdirFail dst e], by rw [← h.1]; rfl, ?_⟩
    intro t e1 hte
    simp only [List.mem_singleton, Event.mkdirFail.injEq, reduceCtorEq, or_false] at hte
    rw [hte.1, hte.2]; exact h.2.symm
  | none =>
    rw [hm] at h
    simp only [Prod.mk.injEq] at h
    refine ⟨[.mkdirOk dst], by rw [← h.1]; rfl, ?_⟩
    intro t e1 hte
    simp at hte

theorem failsWrapped_renderFile (env : Env Data) (src dest : String) (data : Data)
    (s s1 : DestFS) (r : Option Err) (h : renderFile env src dest data s = (s1, r)) :
    FailsWrapped s s1 r := by
  rcases renderFile_cases env src dest data s s1 r h with h1 | ⟨e, h1, h2⟩ | ⟨e, h1, h2⟩ |
    ⟨_, b, h1⟩
  · rw [h1]; exact failsWrapped_refl s r
  · refine ⟨[.mkdirFail (filepathDir (outPath dest)) e], by rw [h1]; rfl, ?_⟩
    intro t e1 hte
    simp only [List.mem_singleton, Event.mkdirFail.injEq, reduceCtorEq, or_false] at hte
    rw [hte.1, hte.2]; exact h2
  · refine ⟨[.openFail (outPath dest) e, .mkdirOk (filepathDir (outPath dest))],
      by rw [h1]; rfl, ?_⟩
    intro t e1 hte
    simp only [List.mem_cons, reduceCtorEq, List.mem_singleton, or_self, false_or,
      Event.openFail.injEq, or_false, List.not_mem_nil] at hte
    rw [hte.1, hte.2]; exact h2
  · refine ⟨[.openOk (outPath dest), .mkdirOk (filepathDir (outPath dest))],
      by rw [h1]; rfl, ?_⟩
    intro t e1 hte
    simp at hte

/-- C7: with a bound above the depth of the template tree, `RenderFS` returns,
and when the run made a `MkdirAll` or an `OpenFile` call that failed, on a
directory or on a file path (the path without its `.tmpl`), the error returned
is: for a permission error, an error with the message
`permission denied: <target>: <message of the failure>` that wraps the failure;
for any other error, the failure itself. -/
theorem RenderFS_permission_error (env : Env Data) (data : Data)
    (templateRoot destRoot : String) (s : DestFS) (depth : String → Nat) (fuel : Nat)
    (hdepth : ∀ src es e, env.readDir src = .ok es → e ∈ es → e.isDir = true →
      depth (pathJoin src e.name) < depth src)
    (hfuel : depth templateRoot < fuel) :
    ∃ s1 r new, RenderFS fuel env templateRoot data destRoot s = some (s1, r) ∧
      s1.log = new ++ s.log ∧
      ∀ target e, (Event.mkdirFail target e ∈ new ∨ Event.openFail target e ∈ new) →
        (isPermission e = true →
          ∃ err, r = some err ∧
            err.message = "permission denied: " ++ target ++ ": " ++ e.message ∧
            err.unwrap = some e) ∧
        (isPermission e = false → r = some e) := by
  obtain ⟨⟨s1, r⟩, h⟩ := RenderFS_total env data templateRoot destRoot s depth fuel hdepth hfuel
  have hF : FailsWrapped s s1 r := by
    unfold RenderFS at h
    cases hst : env.stat templateRoot with
    | error e =>
      rw [hst] at h
      simp only [Option.some.injEq, Prod.mk.injEq] at h
      rw [← h.1]; exact failsWrapped_refl s r
    | ok isDir =>
      rw [hst] at h
      cases isDir with
      | false =>
        simp only [Bool.not_false, if_true, Option.some.injEq] at h
        exact failsWrapped_renderFile env _ _ data s s1 r h
      | true =>
        simp only [Bool.not_true, Bool.false_eq_true, if_false] at h
        exact walk_rule env data (fun _ _ => True) FailsWrapped failsWrapped_refl
          failsWrapped_trans
          (fun _ dst a b r _ hm => failsWrapped_mkdirAll env dst a b r hm)
          (fun _ _ _ _ a b r _ _ _ _ hf => failsWrapped_renderFile env _ _ data a b r hf)
          (fun _ _ _ _ _ _ _ _ => trivial) fuel templateRoot destRoot s s1 r trivial h
  have h0 : RenderFS fuel env templateRoot data destRoot s = some (s1, r) := h
  obtain ⟨new, h1, h2⟩ := hF
  refine ⟨s1, r, new, h0, h1, ?_⟩
  intro target e hte
  have h3 := h2 target e hte
  constructor
  · intro hp
    refine ⟨wrapPermission e target, h3, ?_, ?_⟩ <;> simp [wrapPermission, hp, Err.message, Err.unwrap]
  · intro hp
    rw [h3]; simp [wrapPermission, hp]

/-- C7, on the sample directory: with `out/sub/b.txt` refused with a permission
error by `OpenFile`, with `out/sub` refused with a permission error by
`MkdirAll`, and with `out/sub` failing in `MkdirAll` with another error. The
three runs return the wrapped error, the wrapped error and the error itself. -/
theorem RenderFS_permission_error_witness :
    (RenderFS 2 deniedEnv "t" "World" "out" emptyFS =
        some (deniedFinal, some (Err.wrap
          "permission denied: out/sub/b.txt: open out/sub/b.txt: permission denied"
          deniedErr)) ∧
      RenderFS 2 mkdirDeniedEnv "t" "World" "out" emptyFS =
        some (mkdirFailFinal (.base "mkdir out/sub: permission denied" true), some (Err.wrap
          "permission denied: out/sub: mkdir out/sub: permission denied"
          (.base "mkdir out/sub: permission denied" true))) ∧
      RenderFS 2 notDirEnv "t" "World" "out" emptyFS =
        some (mkdirFailFinal (.base "mkdir out/sub: not a directory" false),
          some (.base "mkdir out/sub: not a directory" false))) ∧
    (∃ s1 r new, RenderFS 2 deniedEnv "t" "World" "out" emptyFS = some (s1, r) ∧
      s1.log = new ++ emptyFS.log ∧
      ∀ target e, (Event.mkdirFail target e ∈ new ∨ Event.openFail target e ∈ new) →
        (isPermission e = true →
          ∃ err, r = some err ∧
            err.message = "permission denied: " ++ target ++ ": " ++ e.message ∧
            err.unwrap = some e) ∧
        (isPermission e = false → r = some e)) ∧
    (∃ s1 r new, RenderFS 2 mkdirDeniedEnv "t" "World" "out" emptyFS = some (s1, r) ∧
      s1.log = new ++ emptyFS.log ∧
      ∀ target e, (Event.mkdirFail target e ∈ new ∨ Event.openFail target e ∈ new) →
        (isPermission e = true →
          ∃ err, r = some err ∧
            err.message = "permission denied: " ++ target ++ ": " ++ e.message ∧
            err.unwrap = some e) ∧
        (isPermission e = false → r = some e)) ∧
    (∃ s1 r new, RenderFS 2 notDirEnv "t" "World" "out" emptyFS = some (s1, r) ∧
      s1.log = new ++ emptyFS.log ∧
      ∀ target e, (Event.mkdirFail target e ∈ new ∨ Event.openFail target e ∈ new) →
        (isPermission e = true →
          ∃ err, r = some err ∧
            err.message = "permission denied: " ++ target ++ ": " ++ e.message ∧
            err.unwrap = some e) ∧
        (isPermission e = false → r = some e)) :=
  ⟨by decide,
    RenderFS_permission_error deniedEnv "World" "t" "out" emptyFS demoDepth 2
      (sampleEnv_depth demoDirs demoFiles demoDepth (by decide)) (by decide),
    RenderFS_permission_error mkdirDeniedEnv "World" "t" "out" emptyFS demoDepth 2
      (sampleEnv_depth demoDirs demoFiles demoDepth (by decide)) (by decide),
    RenderFS_permission_error notDirEnv "World" "t" "out" emptyFS demoDepth 2
      (sampleEnv_depth demoDirs demoFiles demoDepth (by decide)) (by decide)⟩

/-! ## Output paths stay below the destination root -/

theorem within_iff_under (root p : String) : within root p = true ↔ Under root p := by
  unfold within Under
  simp only [Bool.and_eq_true, beq_iff_eq, List.isSuffixOf_iff_suffix, List.all_eq_true,
    bne_iff_ne, ne_eq]
  constructor
  · rintro ⟨⟨h1, ⟨t, ht⟩⟩, h3⟩
    refine ⟨h1, t, ht.symm, ?_⟩
    intro e he
    apply h3
    rw [← ht]
    simpa using he
  · rintro ⟨h1, extra, h2, h3⟩
    refine ⟨⟨h1, ⟨extra, h2.symm⟩⟩, ?_⟩
    intro e he
    rw [h2] at he
    simp at he
    exact h3 e he

theorem under_refl (root : String) : Under root root :=
  ⟨rfl, [], rfl, by simp⟩

/-- One more element after a directory below the root is below the root, unless
the element is `..`. -/
theorem under_pre {root dst : String} (h : Under root dst) {e : List Char} (he : '/' ∉ e)
    (hdd : e ≠ ['.', '.']) :
    Under root ⟨pathPre (isRooted dst.data) (pathStack dst.data) ++ e⟩ := by
  obtain ⟨h1, extra, h2, h3⟩ := h
  obtain ⟨k1, k2⟩ := pre_stack (pathStack_NF dst.data) he
  refine ⟨by rw [k2, h1], ?_⟩
  by_cases hs : e = [] ∨ e = ['.']
  · rw [k1, cleanStep_skip _ _ hs]
    exact ⟨extra, h2, h3⟩
  · have hn : Normal e := ⟨fun hh => hs (Or.inl hh), fun hh => hs (Or.inr hh), hdd, he⟩
    rw [k1, cleanStep_normal _ _ hn]
    refine ⟨e :: extra, by rw [h2]; rfl, ?_⟩
    intro x hx
    rcases List.mem_cons.1 hx with hx | hx
    · rw [hx]; exact hdd
    · exact h3 x hx

/-- The cleaned form of a directory below the root is a cleaned path below the
root. -/
theorem cleanBelow_of_under {root dst : String} (h : Under root dst) :
    CleanBelow root ⟨renderPath (isRooted dst.data) (pathStack dst.data)⟩ := by
  obtain ⟨h1, extra, h2, h3⟩ := h
  refine ⟨pathStack dst.data, extra, ?_, by rw [h1], h2, h3⟩
  rw [← h1]; exact pathStack_NF dst.data

theorem cleanBelow_child {root dst : String} (h : Under root dst) {e : List Char}
    (he : Normal e) :
    CleanBelow root ⟨pathPre (isRooted dst.data) (pathStack dst.data) ++ e⟩ := by
  obtain ⟨h1, extra, h2, h3⟩ := h
  refine ⟨e :: pathStack dst.data, e :: extra, ?_, ?_, by rw [h2]; rfl, ?_⟩
  · rw [← h1]; exact ⟨Or.inl he, pathStack_NF dst.data⟩
  · rw [← h1, renderPath_cons]
  · intro x hx
    rcases List.mem_cons.1 hx with hx | hx
    · rw [hx]; exact he.2.2.1
    · exact h3 x hx

/-! ### What `MkdirAll` makes on a cleaned path -/

theorem strip_slash_end (l : List Char) :
    ((l ++ ['/']).reverse.dropWhile (fun c => c == '/')).reverse =
      (l.reverse.dropWhile (fun c => c == '/')).reverse := by
  simp [List.dropWhile]

theorem strip_noslash_end (x : List Char) {e : List Char} (he : '/' ∉ e) (hne : e ≠ []) :
    ((x ++ e).reverse.dropWhile (fun c => c == '/')).reverse = x ++ e := by
  obtain ⟨e1, c, hc⟩ : ∃ e1 c, e = e1 ++ [c] := by
    rcases List.eq_nil_or_concat e with h0 | ⟨e1, c, h0⟩
    · exact absurd h0 hne
    · exact ⟨e1, c, by simpa using h0⟩
  have hcs : c ≠ '/' := fun hh => he (by rw [hc, hh]; simp)
  have hb : (c == '/') = false := by simpa using hcs
  rw [hc, ← List.append_assoc, List.reverse_append]
  simp [List.dropWhile, hb]

theorem mkdirParent_elem (r : Bool) (st : List (List Char)) {e : List Char} (he : '/' ∉ e)
    (hne : e ≠ []) : mkdirParent ⟨pathPre r st ++ e⟩ = ⟨pathPre r st⟩ := by
  unfold mkdirParent
  simp only
  rw [strip_noslash_end _ he hne, dirPrefix_pre r st he]

theorem mkdirParent_pre_nil (r : Bool) : (mkdirParent ⟨pathPre r []⟩).data = [] := by
  cases r <;> simp [mkdirParent, pathPre, dirPrefix, List.dropWhile]

theorem mkdirParent_pre_cons {r : Bool} {e : List Char} {st : List (List Char)}
    (h : NF r (e :: st)) : mkdirParent ⟨pathPre r (e :: st)⟩ = ⟨pathPre r st⟩ := by
  have hm := NF_mem h e (List.mem_cons_self _ _)
  have h1 : pathPre r (e :: st) = (pathPre r st ++ e) ++ ['/'] := by
    simp [pathPre, renderPath_cons]
  unfold mkdirParent
  simp only
  rw [h1, strip_slash_end, strip_noslash_end _ hm.1 hm.2, dirPrefix_pre r st hm.1]

/-- Every directory `MkdirAll` makes on the way to a cleaned directory followed
by a slash is written with the first elements of that directory. -/
theorem makes_pre (ex : String → Bool) {r : Bool} :
    ∀ n st, NF r st → ∀ q ∈ mkdirAllMakes ex n ⟨pathPre r st⟩,
      isRooted q.data = r ∧ pathStack q.data <:+ st := by
  intro n
  induction n with
  | zero => intro st _ q hq; simp [mkdirAllMakes] at hq
  | succ n ih =>
    intro st hnf q hq
    unfold mkdirAllMakes at hq
    by_cases hex : ex ⟨pathPre r st⟩ = true
    · rw [if_pos hex] at hq; simp at hq
    · rw [if_neg hex] at hq
      rcases List.mem_append.1 hq with h1 | h1
      · cases st with
        | nil => rw [if_pos (mkdirParent_pre_nil r)] at h1; simp at h1
        | cons e st1 =>
          rw [mkdirParent_pre_cons hnf] at h1
          by_cases hp : pathPre r st1 = []
          · rw [if_pos hp] at h1; simp at h1
          · rw [if_neg hp] at h1
            obtain ⟨k1, k2⟩ := ih st1 hnf.2 q h1
            exact ⟨k1, k2.trans (List.suffix_cons _ _)⟩
      · rw [List.mem_singleton.1 h1]
        have := pre_stack (e := []) hnf (by simp)
        simp only [List.append_nil] at this
        rw [cleanStep_skip _ _ (Or.inl rfl)] at this
        exact ⟨this.2, by rw [this.1]⟩

/-- Every directory `MkdirAll` makes on the way to a cleaned path is written
with the first elements of that path. -/
theorem makes_render (ex : String → Bool) {r : Bool} {st : List (List Char)} (hnf : NF r st)
    (n : Nat) :
    ∀ q ∈ mkdirAllMakes ex n ⟨renderPath r st⟩,
      isRooted q.data = r ∧ pathStack q.data <:+ st := by
  intro q hq
  have hself : isRooted (renderPath r st) = r ∧ pathStack (renderPath r st) <:+ st := by
    obtain ⟨k1, k2⟩ := pathStack_render hnf
    exact ⟨k2, by rw [k1]⟩
  cases n with
  | zero => simp [mkdirAllMakes] at hq
  | succ n =>
    unfold mkdirAllMakes at hq
    by_cases hex : ex ⟨renderPath r st⟩ = true
    · rw [if_pos hex] at hq; simp at hq
    · rw [if_neg hex] at hq
      rcases List.mem_append.1 hq with h1 | h1
      · cases st with
        | nil =>
          cases r with
          | true =>
            have h2 : (⟨renderPath true []⟩ : String) = ⟨pathPre true []⟩ := by
              simp [renderPath, pathPre, joinSlash]
            rw [h2, if_pos (mkdirParent_pre_nil true)] at h1
            simp at h1
          | false =>
            have h2 : (mkdirParent ⟨renderPath false []⟩).data = [] := by
              simp [mkdirParent, renderPath, dirPrefix, List.dropWhile]
            rw [if_pos h2] at h1
            simp at h1
        | cons e st1 =>
          have hm := NF_mem hnf e (List.mem_cons_self _ _)
          rw [renderPath_cons, mkdirParent_elem r st1 hm.1 hm.2] at h1
          by_cases hp : pathPre r st1 = []
          · rw [if_pos hp] at h1; simp at h1
          · rw [if_neg hp] at h1
            obtain ⟨k1, k2⟩ := makes_pre ex n st1 hnf.2 q h1
            exact ⟨k1, k2.trans (List.suffix_cons _ _)⟩
      · rw [List.mem_singleton.1 h1]; exact hself

/-- What `MkdirAll` makes on a cleaned path at or below the root is at or below
the root, or is the root or a parent of it. -/
theorem makes_cleanBelow {root d : String} (h : CleanBelow root d) (ex : String → Bool)
    (n : Nat) :
    ∀ q ∈ mkdirAllMakes ex n d, within root q = true ∨ above root q = true := by
  obtain ⟨st, extra, hnf, hd, hst, hex⟩ := h
  intro q hq
  rw [hd] at hq
  obtain ⟨k1, ⟨t, ht⟩⟩ := makes_render ex hnf n q hq
  rw [hst] at ht
  rcases List.append_eq_append_iff.1 ht with ⟨a, h1, h2⟩ | ⟨c, h1, h2⟩
  · -- extra = t ++ a, the elements of q are a ++ those of root
    left
    refine (within_iff_under _ _).2 ⟨k1, a, h2, ?_⟩
    intro e he
    exact hex e (by rw [h1]; exact List.mem_append_right _ he)
  · right
    unfold above
    simp only [Bool.and_eq_true, beq_iff_eq, List.isSuffixOf_iff_suffix]
    exact ⟨k1, ⟨c, h2.symm⟩⟩

/-! ### The calls of a walk -/

theorem endsInDotDot_pre (r : Bool) (st : List (List Char)) {e : List Char} (he : '/' ∉ e) :
    endsInDotDot ⟨pathPre r st ++ e⟩ = true ↔ e = ['.', '.'] := by
  unfold endsInDotDot
  have hl : (splitSlash (pathPre r st ++ e)).getLast? = some e := by
    rcases pathPre_shape r st with h | ⟨y, h⟩
    · rw [h, List.nil_append, splitSlash_noslash he]; rfl
    · rw [h, List.append_assoc, List.singleton_append, splitSlash_append_slash,
        splitSlash_noslash he]
      simp
  simp only
  rw [hl]
  simp

theorem contained_refl (root : String) (s : DestFS) : Contained root s s :=
  ⟨[], rfl, by simp, by simp⟩

theorem contained_trans (root : String) (s s1 s2 : DestFS) (h1 : Contained root s s1)
    (h2 : Contained root s1 s2) : Contained root s s2 := by
  obtain ⟨n1, e1, f1, g1⟩ := h1
  obtain ⟨n2, e2, f2, g2⟩ := h2
  refine ⟨n2 ++ n1, by rw [e2, e1, List.append_assoc], ?_, ?_⟩
  · intro p hp
    rcases List.mem_append.1 hp with h | h
    · exact f2 p h
    · exact f1 p h
  · intro d hd
    rcases hd with h | ⟨e, h⟩
    · rcases List.mem_append.1 h with h | h
      · exact g2 d (Or.inl h)
      · exact g1 d (Or.inl h)
    · rcases List.mem_append.1 h with h | h
      · exact g2 d (Or.inr ⟨e, h⟩)
      · exact g1 d (Or.inr ⟨e, h⟩)

theorem contained_mkdirAll (env : Env Data) (root dst : String) (s s1 : DestFS)
    (r : Option Err) (hd : dst = root ∨ CleanBelow root dst)
    (h : mkdirAll env dst s = (s1, r)) : Contained root s s1 := by
  unfold mkdirAll at h
  cases hm : env.mkdirAllErr s dst with
  | some e =>
    rw [hm] at h
    simp only [Prod.mk.injEq] at h
    rw [← h.1]
    refine ⟨[.mkdirFail dst e], rfl, by simp, ?_⟩
    intro d hmem
    simp only [List.mem_singleton, reduceCtorEq, Event.mkdirFail.injEq, false_or] at hmem
    obtain ⟨_, h1, _⟩ := hmem
    rw [h1]; exact hd
  | none =>
    rw [hm] at h
    simp only [Prod.mk.injEq] at h
    rw [← h.1]
    refine ⟨[.mkdirOk dst], rfl, by simp, ?_⟩
    intro d hmem
    simp only [List.mem_singleton, Event.mkdirOk.injEq, reduceCtorEq, exists_false,
      or_false] at hmem
    rw [hmem]; exact hd

theorem contained_renderFile (env : Env Data) (root src dest : String) (data : Data)
    (s s1 : DestFS) (r : Option Err) (hd : CleanBelow root (filepathDir (outPath dest)))
    (hf : env.openErr (afterMkdir s (outPath dest)) (outPath dest) = none →
      within root (outPath dest) = true)
    (h : renderFile env src dest data s = (s1, r)) : Contained root s s1 := by
  rcases renderFile_cases env src dest data s s1 r h with h1 | ⟨e, h1, _⟩ | ⟨e, h1, _⟩ |
    ⟨ho, b, h1⟩
  · rw [h1]; exact contained_refl root s
  · rw [h1]
    refine ⟨[.mkdirFail (filepathDir (outPath dest)) e], rfl, by simp, ?_⟩
    intro d hmem
    simp only [List.mem_singleton, reduceCtorEq, Event.mkdirFail.injEq, false_or] at hmem
    obtain ⟨_, h2, _⟩ := hmem
    rw [h2]; exact Or.inr hd
  · rw [h1]
    refine ⟨[.openFail (outPath dest) e, .mkdirOk (filepathDir (outPath dest))], rfl,
      by simp, ?_⟩
    intro d hmem
    simp only [List.mem_cons, reduceCtorEq, List.mem_singleton, Event.mkdirOk.injEq, false_or,
      List.not_mem_nil, or_false, exists_false] at hmem
    rw [hmem]; exact Or.inr hd
  · rw [h1]
    refine ⟨[.openOk (outPath dest), .mkdirOk (filepathDir (outPath dest))], rfl, ?_, ?_⟩
    · intro p hmem
      simp only [List.mem_cons, Event.openOk.injEq, reduceCtorEq, List.mem_singleton,
        List.not_mem_nil, or_false] at hmem
      rw [hmem]; exact hf ho
    · intro d hmem
      simp only [List.mem_cons, reduceCtorEq, List.mem_singleton, Event.mkdirOk.injEq, false_or,
        List.not_mem_nil, or_false, exists_false] at hmem
      rw [hmem]; exact Or.inr hd

/-- A walk whose entry names are names an `embed.FS` can hold, on an operating
system that does not open `..` for writing, started on the root or on a cleaned
directory at or below it, stays at or below the root. -/
theorem renderDir_contained (env : Env Data) (data : Data) (root : String)
    (hnames : ∀ src es, env.readDir src = .ok es → ∀ e ∈ es, embedName e.name)
    (hopen : ∀ a p, endsInDotDot p = true → env.openErr a p ≠ none) :
    ∀ fuel src dst s s1 r, Under root dst → (dst = root ∨ CleanBelow root dst) →
      renderDir env data fuel src dst s = some (s1, r) → Contained root s s1 := by
  intro fuel src dst s s1 r hu hc h
  refine walk_rule env data (fun _ dst => Under root dst ∧ (dst = root ∨ CleanBelow root dst))
    (fun a b _ => Contained root a b)
    (fun a _ => contained_refl root a) (fun a b c _ h1 h2 => contained_trans root a b c h1 h2)
    ?_ ?_ ?_ fuel src dst s s1 r ⟨hu, hc⟩ h
  · intro _ dst a b r hI hm
    exact contained_mkdirAll env root dst a b r hI.2 hm
  · intro src dst es e a b r hI hr he _ hf
    have hp := embedName_plain (hnames src es hr e he)
    have hsub : '/' ∉ (outPath (destName e.name)).data := by
      obtain ⟨t, ht⟩ := outPath_data_sub (destName e.name)
      intro hm
      exact (destName_normal hp).2.2.2 (by rw [ht]; exact List.mem_append_left _ hm)
    have hout : outPath (filepathJoin dst (destName e.name)) =
        ⟨pathPre (isRooted dst.data) (pathStack dst.data) ++ (outPath (destName e.name)).data⟩ := by
      rw [walk_dest dst hp, outPath_pre, string_eta]
    refine contained_renderFile env root _ _ data a b r ?_ ?_ hf
    · rw [hout, filepathDir_pre (pathStack_NF dst.data) hsub]
      exact cleanBelow_of_under hI.1
    · intro ho
      rw [hout] at ho ⊢
      apply (within_iff_under _ _).2
      apply under_pre hI.1 hsub
      intro hdd
      exact hopen _ _ ((endsInDotDot_pre _ _ hsub).2 hdd) ho
  · intro src dst es e hI hr he _
    have hp := embedName_plain (hnames src es hr e he)
    have hn := destName_normal hp
    rw [walk_dest dst hp]
    exact ⟨under_pre hI.1 hn.2.2.2 hn.2.2.1, Or.inr (cleanBelow_child hI.1 hn)⟩

/-- C8, as the code has it: for a template tree of bounded depth whose entry
names are names an `embed.FS` can hold, every destination root, and an
operating system that opens no path ending in `..` for writing, `RenderFS` on a
directory returns; every file it opened is at or below the destination root;
and every `MkdirAll` call other than the one on the destination root itself,
whatever directories exist, makes only directories at or below the destination
root, or parents of it. -/
theorem RenderFS_stays_within (env : Env Data) (data : Data) (templateRoot destRoot : String)
    (s : DestFS) (depth : String → Nat) (fuel : Nat)
    (hdir : env.stat templateRoot = .ok true)
    (hnames : ∀ src es, env.readDir src = .ok es → ∀ e ∈ es, embedName e.name)
    (hopen : ∀ a p, endsInDotDot p = true → env.openErr a p ≠ none)
    (hdepth : ∀ src es e, env.readDir src = .ok es → e ∈ es → e.isDir = true →
      depth (pathJoin src e.name) < depth src)
    (hfuel : depth templateRoot < fuel) :
    ∃ s1 r new, RenderFS fuel env templateRoot data destRoot s = some (s1, r) ∧
      s1.log = new ++ s.log ∧
      (∀ p, Event.openOk p ∈ new → within destRoot p = true) ∧
      (∀ d, (Event.mkdirOk d ∈ new ∨ ∃ e, Event.mkdirFail d e ∈ new) →
        d = destRoot ∨
        ∀ ex n, ∀ q ∈ mkdirAllMakes ex n d,
          within destRoot q = true ∨ above destRoot q = true) := by
  have h0 : RenderFS fuel env templateRoot data destRoot s =
      renderDir env data fuel templateRoot destRoot s := by
    unfold RenderFS; rw [hdir]; rfl
  obtain ⟨⟨s1, r⟩, hres⟩ := renderDir_total env data depth hdepth fuel templateRoot destRoot s hfuel
  obtain ⟨new, h1, h2, h3⟩ := renderDir_contained env data destRoot hnames hopen fuel
    templateRoot destRoot s s1 r (under_refl destRoot) (Or.inl rfl) hres
  refine ⟨s1, r, new, by rw [h0, hres], h1, h2, ?_⟩
  intro d hd
  rcases h3 d hd with h4 | h4
  · exact Or.inl h4
  · exact Or.inr (fun ex n => makes_cleanBelow h4 ex n)

/-- C8 as amended, on the sample directory. -/
theorem RenderFS_stays_within_witness :
    ∃ s1 r new, RenderFS 2 posixEnv "t" "World" "out" emptyFS = some (s1, r) ∧
      s1.log = new ++ emptyFS.log ∧
      (∀ p, Event.openOk p ∈ new → within "out" p = true) ∧
      (∀ d, (Event.mkdirOk d ∈ new ∨ ∃ e, Event.mkdirFail d e ∈ new) →
        d = "out" ∨
        ∀ ex n, ∀ q ∈ mkdirAllMakes ex n d, within "out" q = true ∨ above "out" q = true) :=
  RenderFS_stays_within posixEnv "World" "t" "out" emptyFS demoDepth 2 (by decide)
    (sampleEnv_forall embedName demoDirs demoFiles (by decide))
    (fun _ p h => by simp [posixEnv, h])
    (sampleEnv_depth demoDirs demoFiles demoDepth (by decide)) (by decide)

/-- C8 as stated fails, on the sample directory, whose entry names an `embed.FS`
can hold, with the destination root `a/out` in a destination where no directory
exists: the first call of the walk is `MkdirAll` on `a/out`, which makes the
directory `a` first, and `a` is not at or below `a/out`. -/
theorem RenderFS_stays_within_counterexample :
    (∀ p ∈ demoDirs, ∀ e ∈ p.2, embedName e.name ∧ pathElem e.name) ∧
    RenderFS 2 demoEnv "t" "World" "a/out" emptyFS = some (deepFinal, none) ∧
    deepFinal.log.getLast? = some (.mkdirOk "a/out") ∧
    mkdirAllMakes (fun p => decide (p ∈ emptyFS.dirs)) 6 "a/out" = ["a/", "a/out"] ∧
    within "a/out" "a/" = false := by
  decide

/-! ## Directories of the destination -/

theorem dirs_mkdirAll (env : Env Data) (dst : String) (s s1 : DestFS) (r : Option Err)
    (h : mkdirAll env dst s = (s1, r)) :
    (∀ p ∈ s.dirs, p ∈ s1.dirs) ∧ (r = none → dst ∈ s1.dirs) := by
  unfold mkdirAll at h
  cases hm : env.mkdirAllErr s dst with
  | some e =>
    rw [hm] at h
    simp only [Prod.mk.injEq] at h
    rw [← h.1, ← h.2]
    exact ⟨fun _ hp => hp, fun hh => by simp at hh⟩
  | none =>
    rw [hm] at h
    simp only [Prod.mk.injEq] at h
    rw [← h.1]
    exact ⟨fun _ hp => List.mem_cons_of_mem _ hp, fun _ => List.mem_cons_self _ _⟩

theorem dirs_renderFile (env : Env Data) (src dest : String) (data : Data) (s s1 : DestFS)
    (r : Option Err) (h : renderFile env src dest data s = (s1, r)) :
    ∀ p ∈ s.dirs, p ∈ s1.dirs := by
  rcases renderFile_cases env src dest data s s1 r h with h1 | ⟨e, h1, _⟩ | ⟨e, h1, _⟩ |
    ⟨_, b, h1⟩
  · rw [h1]; exact fun _ hp => hp
  · rw [h1]; exact fun _ hp => hp
  · rw [h1]; exact fun _ hp => List.mem_cons_of_mem _ hp
  · rw [h1]; exact fun _ hp => List.mem_cons_of_mem _ hp

theorem renderFile_ok_written (env : Env Data) (src dest : String) (data : Data)
    (s s1 : DestFS) (h : renderFile env src dest data s = (s1, none)) :
    ∃ bytes, s1 = written s (outPath dest) bytes := by
  by_cases hs : hasSuffix dest ".tmpl" = true
  · obtain ⟨_, out, _, _, _, h4⟩ := renderFile_ok_tmpl env src dest data s s1 hs h
    exact ⟨out, by rw [h4]; simp [outPath, hs]⟩
  · obtain ⟨content, _, h2⟩ := renderFile_ok_plain env src dest data s s1 (by simpa using hs) h
    exact ⟨content, by rw [h2]; simp [outPath, hs]⟩

/-- A walk removes no directory. -/
theorem dirs_renderDir (env : Env Data) (data : Data) :
    ∀ fuel src dst s s1 r, renderDir env data fuel src dst s = some (s1, r) →
      ∀ p ∈ s.dirs, p ∈ s1.dirs := by
  intro fuel src dst s s1 r h
  exact walk_rule env data (fun _ _ => True) (fun a b _ => ∀ p ∈ a.dirs, p ∈ b.dirs)
    (fun _ _ _ hp => hp) (fun _ _ _ _ h1 h2 p hp => h2 p (h1 p hp))
    (fun _ dst a b r _ hm => (dirs_mkdirAll env dst a b r hm).1)
    (fun _ _ _ _ a b r _ _ _ _ hf => dirs_renderFile env _ _ data a b r hf)
    (fun _ _ _ _ _ _ _ _ => trivial) fuel src dst s s1 r trivial h

theorem dirs_renderEntry (env : Env Data) (data : Data) (fuel : Nat) (src dst : String)
    (e : DirEntry) (s s1 : DestFS) (r : Option Err)
    (h : renderEntry (renderDir env data fuel) env src dst data e s = some (s1, r)) :
    ∀ p ∈ s.dirs, p ∈ s1.dirs := by
  unfold renderEntry at h
  cases hd : e.isDir with
  | false =>
    rw [hd] at h
    simp only [Bool.false_eq_true, if_false, Option.some.injEq] at h
    exact dirs_renderFile env _ _ data s s1 r h
  | true =>
    rw [hd] at h
    simp only [if_true] at h
    exact dirs_renderDir env data fuel _ _ s s1 r h

/-- In a loop that returned no error, every entry returned no error from some
destination, and the directories it left are there at the end. -/
theorem entries_each (env : Env Data) (data : Data) (fuel : Nat) (src dst : String)
    (l : List DirEntry) :
    ∀ s s1, renderEntries (renderDir env data fuel) env src dst data l s = some (s1, none) →
      (∀ p ∈ s.dirs, p ∈ s1.dirs) ∧
      ∀ e ∈ l, ∃ a b, renderEntry (renderDir env data fuel) env src dst data e a = some (b, none) ∧
        ∀ p ∈ b.dirs, p ∈ s1.dirs := by
  induction l with
  | nil =>
    intro s s1 h
    simp only [renderEntries, Option.some.injEq, Prod.mk.injEq, and_true] at h
    rw [← h]
    exact ⟨fun _ hp => hp, fun e he => by simp at he⟩
  | cons x t ih =>
    intro s s1 h
    rw [renderEntries_cons] at h
    rcases hx : renderEntry (renderDir env data fuel) env src dst data x s with _ | ⟨s2, _ | err⟩
    · rw [hx] at h; simp at h
    · rw [hx] at h
      simp only at h
      obtain ⟨m1, m2⟩ := ih s2 s1 h
      have m0 := dirs_renderEntry env data fuel src dst x s s2 none hx
      refine ⟨fun p hp => m1 p (m0 p hp), ?_⟩
      intro e he
      rcases List.mem_cons.1 he with h1 | h1
      · rw [h1]; exact ⟨s, s2, hx, m1⟩
      · exact m2 e h1
    · rw [hx] at h; simp at h

/-- After a walk without error, every directory met has its destination, and
every file met the parent directory of the path it was written to. -/
theorem renderDir_dirs_exist (env : Env Data) (data : Data) :
    ∀ fuel a b s s1, renderDir env data fuel a b s = some (s1, none) →
      ∀ src dst, Reach env a b src dst →
        dst ∈ s1.dirs ∧
        ∀ es e, env.readDir src = .ok es → e ∈ es → e.isDir = false →
          filepathDir (outPath (filepathJoin dst (destName e.name))) ∈ s1.dirs := by
  intro fuel
  induction fuel with
  | zero => intro a b s s1 h; simp [renderDir] at h
  | succ fuel ih =>
    intro a b s s1 h src dst hreach
    rw [renderDir_succ] at h
    cases hr : env.readDir a with
    | error e => rw [hr] at h; simp at h
    | ok es0 =>
      rw [hr] at h
      simp only at h
      rcases hm : mkdirAll env b s with ⟨s0, _ | e⟩
      · rw [hm] at h
        simp only at h
        obtain ⟨m1, m2⟩ := entries_each env data fuel a b es0 s0 s1 h
        cases hreach with
        | here =>
          refine ⟨m1 b ((dirs_mkdirAll env b s s0 none hm).2 rfl), ?_⟩
          intro es e hes he hd
          have : es = es0 := by rw [hr] at hes; injection hes with hes; exact hes.symm
          rw [this] at he
          obtain ⟨x, y, hxy, hy⟩ := m2 e he
          unfold renderEntry at hxy
          rw [hd, ← destName_eq_spec] at hxy
          simp only [Bool.false_eq_true, if_false, Option.some.injEq] at hxy
          apply hy
          obtain ⟨bytes, h1⟩ := renderFile_ok_written env _ _ data x y hxy
          rw [h1]; exact List.mem_cons_self _ _
        | deeper _ _ _ _ es e hes he hd hrest =>
          have : es = es0 := by rw [hr] at hes; injection hes with hes; exact hes.symm
          rw [this] at he
          obtain ⟨x, y, hxy, hy⟩ := m2 e he
          unfold renderEntry at hxy
          rw [hd, ← destName_eq_spec] at hxy
          simp only [if_true] at hxy
          obtain ⟨k1, k2⟩ := ih _ _ x y hxy src dst hrest
          exact ⟨hy _ k1, fun es1 e1 h1 h2 h3 => hy _ (k2 es1 e1 h1 h2 h3)⟩
      · rw [hm] at h; simp at h

/-- C4: after a `RenderFS` on a directory that returned no error, every
directory met in the walk (the template root itself, every nested directory,
with or without entries) has its destination path among the directories of the
destination, and so has the parent directory of the path every file met was
written to. -/
theorem RenderFS_directories_exist (fuel : Nat) (env : Env Data) (templateRoot destRoot : String)
    (data : Data) (s s1 : DestFS) (src dst : String)
    (hdir : env.stat templateRoot = .ok true)
    (hok : RenderFS fuel env templateRoot data destRoot s = some (s1, none))
    (hreach : Reach env templateRoot destRoot src dst) :
    dst ∈ s1.dirs ∧
      ∀ es e, env.readDir src = .ok es → e ∈ es → e.isDir = false →
        filepathDir (outPath (filepathJoin dst (destName e.name))) ∈ s1.dirs := by
  have h0 : RenderFS fuel env templateRoot data destRoot s =
      renderDir env data fuel templateRoot destRoot s := by
    unfold RenderFS; rw [hdir]; rfl
  rw [h0] at hok
  exact renderDir_dirs_exist env data fuel templateRoot destRoot s s1 hok src dst hreach

/-- C4, on the sample directory: the nested directory `t/sub` has its
destination `out/sub`. -/
theorem RenderFS_directories_exist_witness :
    "out/sub" ∈ demoFinal.dirs ∧
      ∀ es e, demoEnv.readDir "t/sub" = .ok es → e ∈ es → e.isDir = false →
        filepathDir (outPath (filepathJoin "out/sub" (destName e.name))) ∈ demoFinal.dirs :=
  RenderFS_directories_exist 2 demoEnv "t" "out" "World" emptyFS demoFinal "t/sub" "out/sub"
    (by decide) (by decide)
    (Reach.deeper "t" "out" "t/sub" "out/sub"
      [⟨"a.tmpl", false⟩, ⟨"dot.env", false⟩, ⟨"sub", true⟩, ⟨"z.txt", false⟩] ⟨"sub", true⟩
      (by decide) (by decide) rfl
      (by
        have h1 : pathJoin "t" "sub" = "t/sub" := by decide
        have h2 : filepathJoin "out" (destName "sub") = "out/sub" := by decide
        rw [h1, h2]; exact Reach.here _ _))

/-! ## A static file and a template with the same destination -/

theorem isPrefixOf_dot_append (l : List Char) (h : l ≠ ['d', 'o', 't']) :
    List.isPrefixOf ['d', 'o', 't', '.'] (l ++ ['.', 't', 'm', 'p', 'l']) =
      List.isPrefixOf ['d', 'o', 't', '.'] l := by
  rcases l with _ | ⟨a, _ | ⟨b, _ | ⟨c, _ | ⟨d, l⟩⟩⟩⟩
  · simp [List.isPrefixOf]
  · simp [List.isPrefixOf]
  · simp [List.isPrefixOf]
  · have hne : ¬ ('d' = a ∧ 'o' = b ∧ 't' = c) := by
      rintro ⟨h1, h2, h3⟩
      exact h (by rw [← h1, ← h2, ← h3])
    simp [List.isPrefixOf]
    intro h1 h2 h3
    exact hne ⟨h1, h2, h3⟩
  · simp [List.isPrefixOf]

theorem destName_append_tmpl {x : String} (h : x ≠ "dot") :
    destName (x ++ ".tmpl") = destName x ++ ".tmpl" := by
  have hx : x.data ≠ ['d', 'o', 't'] := fun hh => h (String.ext_iff.2 hh)
  apply String.ext_iff.2
  rw [String.data_append, destName_data, destName_data, String.data_append]
  have h5 : (".tmpl" : String).data = ['.', 't', 'm', 'p', 'l'] := rfl
  rw [h5]
  have hiff : ['d', 'o', 't', '.'] <+: x.data ++ ['.', 't', 'm', 'p', 'l'] ↔
      ['d', 'o', 't', '.'] <+: x.data := by
    rw [← List.isPrefixOf_iff_prefix, ← List.isPrefixOf_iff_prefix, isPrefixOf_dot_append _ hx]
  by_cases hp : ['d', 'o', 't', '.'] <+: x.data
  · rw [if_pos hp, if_pos (hiff.2 hp)]
    obtain ⟨r, hr⟩ := hp
    rw [← hr]
    simp
  · rw [if_neg hp, if_neg (fun hh => hp (hiff.1 hh))]

theorem outPath_append_tmpl (n : String) : outPath (n ++ ".tmpl") = n := by
  have hs : hasSuffix (n ++ ".tmpl") ".tmpl" = true := by
    unfold hasSuffix
    rw [List.isSuffixOf_iff_suffix, String.data_append]
    exact List.suffix_append _ _
  obtain ⟨b, hb, ht⟩ := trimSuffix_of_suffix hs
  unfold outPath
  rw [if_pos hs, ht]
  apply String.ext_iff.2
  rw [String.data_append] at hb
  exact (List.append_cancel_right hb).symm

theorem files_renderFile (env : Env Data) (src dest : String) (data : Data) (s s1 : DestFS)
    (r : Option Err) (h : renderFile env src dest data s = (s1, r)) :
    ∀ p, p ≠ outPath dest → fileAt s1 p = fileAt s p := by
  intro p hp
  rcases renderFile_cases env src dest data s s1 r h with h1 | ⟨e, h1, _⟩ | ⟨e, h1, _⟩ |
    ⟨_, b, h1⟩
  · rw [h1]
  · rw [h1]; rfl
  · rw [h1]; rfl
  · rw [h1]; exact fileAt_written_ne s _ p b hp

theorem files_mkdirAll (env : Env Data) (dst : String) (s s1 : DestFS) (r : Option Err)
    (h : mkdirAll env dst s = (s1, r)) : ∀ p, fileAt s1 p = fileAt s p := by
  intro p
  unfold mkdirAll at h
  cases hm : env.mkdirAllErr s dst with
  | some e =>
    rw [hm] at h
    simp only [Prod.mk.injEq] at h
    rw [← h.1]; rfl
  | none =>
    rw [hm] at h
    simp only [Prod.mk.injEq] at h
    rw [← h.1]; rfl

/-- A path joined with an ordinary element is a cleaned directory path. -/
theorem cleanDir_child (dst : String) {e : List Char} (he : Normal e) :
    CleanDir ⟨pathPre (isRooted dst.data) (pathStack dst.data) ++ e⟩ := by
  unfold CleanDir
  obtain ⟨k1, k2⟩ := pre_stack (pathStack_NF dst.data) he.2.2.2
  simp only
  rw [k1, k2, cleanStep_normal _ _ he]
  simp [pathPre, renderPath_cons]

/-- A walk started on a cleaned directory at or below the cleaned directory `d`
writes only files whose path is `d`, a slash and more. -/
theorem nested_untouched (env : Env Data) (data : Data) (d : String)
    (hnames : ∀ src es, env.readDir src = .ok es → ∀ e ∈ es, embedName e.name) :
    ∀ fuel src dst s s1 r, CleanDir dst → (∃ k, dst.data ++ ['/'] = d.data ++ '/' :: k) →
      renderDir env data fuel src dst s = some (s1, r) →
      ∀ p : String, (¬ ∃ k, p.data = d.data ++ '/' :: k) → fileAt s1 p = fileAt s p := by
  intro fuel src dst s s1 r hc hk h
  refine walk_rule env data
    (fun _ dst => CleanDir dst ∧ ∃ k, dst.data ++ ['/'] = d.data ++ '/' :: k)
    (fun a b _ => ∀ p : String, (¬ ∃ k, p.data = d.data ++ '/' :: k) → fileAt b p = fileAt a p)
    (fun _ _ _ _ => rfl) (fun a b c _ h1 h2 p hp => by rw [h2 p hp, h1 p hp])
    ?_ ?_ ?_ fuel src dst s s1 r ⟨hc, hk⟩ h
  · intro _ dst a b r _ hm p _
    exact files_mkdirAll env dst a b r hm p
  · intro src dst es e a b r hI hr he _ hf p hp
    have hpl := embedName_plain (hnames src es hr e he)
    apply files_renderFile env _ _ data a b r hf
    rw [walk_dest dst hpl, outPath_pre, string_eta]
    intro hh
    apply hp
    obtain ⟨hcd, k, hk1⟩ := hI
    unfold CleanDir at hcd
    refine ⟨k ++ (outPath (destName e.name)).data, ?_⟩
    rw [hh]
    simp only
    rw [hcd, hk1]
    simp
  · intro src dst es e hI hr he _
    have hpl := embedName_plain (hnames src es hr e he)
    have hn := destName_normal hpl
    obtain ⟨hcd, k, hk1⟩ := hI
    unfold CleanDir at hcd
    rw [walk_dest dst hpl]
    refine ⟨cleanDir_child dst hn, k ++ (destName e.name).data ++ ['/'], ?_⟩
    simp only
    rw [hcd, hk1]
    simp

/-- Entries whose destination names, with or without their `.tmpl`, differ from
`y` leave the file at `filepath.Join(destDir, y)` as it is. -/
theorem post_untouched (env : Env Data) (data : Data) (fuel : Nat) (srcDir destDir y : String)
    (hnames : ∀ src es, env.readDir src = .ok es → ∀ e ∈ es, embedName e.name)
    (hy : Normal y.data) :
    ∀ l : List DirEntry,
      (∀ e ∈ l, embedName e.name ∧ (e.isDir = false → outPath (destName e.name) ≠ y)) →
      ∀ a b r, renderEntries (renderDir env data fuel) env srcDir destDir data l a = some (b, r) →
        fileAt b (filepathJoin destDir y) = fileAt a (filepathJoin destDir y) := by
  have hP : filepathJoin destDir y =
      ⟨pathPre (isRooted destDir.data) (pathStack destDir.data) ++ y.data⟩ :=
    String.ext_iff.2 (filepathJoin_normal destDir y hy)
  intro l
  induction l with
  | nil =>
    intro _ a b r h
    simp only [renderEntries, Option.some.injEq, Prod.mk.injEq] at h
    rw [← h.1]
  | cons e t ih =>
    intro hl a b r h
    obtain ⟨hs, hne2⟩ := hl e (List.mem_cons_self _ _)
    have hpl := embedName_plain hs
    have hn := destName_normal hpl
    rw [renderEntries_cons] at h
    have hstep : ∀ a1 r1, renderEntry (renderDir env data fuel) env srcDir destDir data e a =
        some (a1, r1) → fileAt a1 (filepathJoin destDir y) = fileAt a (filepathJoin destDir y) := by
      intro a1 r1 h1
      unfold renderEntry at h1
      rw [← destName_eq_spec] at h1
      cases hd : e.isDir with
      | false =>
        rw [hd] at h1
        simp only [Bool.false_eq_true, if_false, Option.some.injEq] at h1
        apply files_renderFile env _ _ data a a1 r1 h1
        rw [walk_dest destDir hpl, outPath_pre, string_eta, hP]
        intro hh
        have h3 := String.ext_iff.1 hh
        simp only at h3
        exact hne2 hd (String.ext_iff.2 (List.append_cancel_left h3).symm)
      | true =>
        rw [hd] at h1
        simp only [if_true] at h1
        apply nested_untouched env data (filepathJoin destDir (destName e.name)) hnames fuel _ _
          a a1 r1 ?_ ⟨[], rfl⟩ h1
        · rw [walk_dest destDir hpl, hP]
          rintro ⟨k, hk⟩
          simp only [List.append_assoc] at hk
          have h3 := List.append_cancel_left hk
          exact hy.2.2.2 (by rw [h3]; simp)
        · rw [walk_dest destDir hpl]; exact cleanDir_child destDir hn
    rcases hre : renderEntry (renderDir env data fuel) env srcDir destDir data e a with
      _ | ⟨a1, _ | err⟩
    · rw [hre] at h; simp at h
    · rw [hre] at h
      simp only at h
      rw [ih (fun x hx => hl x (List.mem_cons_of_mem _ hx)) a1 b r h]
      exact hstep a1 none hre
    · rw [hre] at h
      simp only [Option.some.injEq, Prod.mk.injEq] at h
      rw [← h.1]; exact hstep a1 (some err) hre

/-- C9, as the code has it: in a directory listed in name order that holds a
static file `x` and a template `x.tmpl`, where `x` is not `dot` and no file
listed after `x.tmpl` has the destination name of `x` (as it is or once its
`.tmpl` is removed), `x` and `x.tmpl` are written to the same destination path,
the destination name of `x` joined to the destination directory, and after a
walk without error that path holds the output of executing `x.tmpl`. Entry
names are names an `embed.FS` can hold. -/
theorem renderDir_static_and_template (env : Env Data) (data : Data) (fuel : Nat)
    (srcDir destDir x : String) (entries : List DirEntry) (s s1 : DestFS)
    (hnames : ∀ src es, env.readDir src = .ok es → ∀ e ∈ es, embedName e.name)
    (hlist : env.readDir srcDir = .ok entries)
    (hsorted : (entries.map DirEntry.name).Pairwise nameLt)
    (hx : ⟨x, false⟩ ∈ entries) (hxt : ⟨x ++ ".tmpl", false⟩ ∈ entries)
    (hstatic : hasSuffix x ".tmpl" = false) (hdot : x ≠ "dot")
    (hafter : ∀ e ∈ entries, e.isDir = false → nameLt (x ++ ".tmpl") e.name →
      outPath (destName e.name) ≠ destName x)
    (hok : renderDir env data (fuel + 1) srcDir destDir s = some (s1, none)) :
    outPath (filepathJoin destDir (destName x)) = filepathJoin destDir (destName x) ∧
    outPath (filepathJoin destDir (destName (x ++ ".tmpl"))) =
      filepathJoin destDir (destName x) ∧
    ∃ content out, env.readFile (pathJoin srcDir (x ++ ".tmpl")) = .ok content ∧
      env.execute (filepathBase (pathJoin srcDir (x ++ ".tmpl"))) content data = (out, none) ∧
      fileAt s1 (filepathJoin destDir (destName x)) = some out := by
  have hsx : plainName x := embedName_plain (hnames srcDir entries hlist _ hx)
  have hsxt : plainName (x ++ ".tmpl") := embedName_plain (hnames srcDir entries hlist _ hxt)
  have hy := destName_normal hsx
  -- the two destination paths
  have hp1 : outPath (filepathJoin destDir (destName x)) = filepathJoin destDir (destName x) := by
    unfold outPath
    rw [walk_dest_suffix destDir hsx, hstatic]; rfl
  have hsuf : hasSuffix (filepathJoin destDir (destName (x ++ ".tmpl"))) ".tmpl" = true := by
    rw [walk_dest_suffix destDir hsxt]
    unfold hasSuffix
    rw [List.isSuffixOf_iff_suffix, String.data_append]
    exact List.suffix_append _ _
  have hp2 : outPath (filepathJoin destDir (destName (x ++ ".tmpl"))) =
      filepathJoin destDir (destName x) := by
    rw [walk_dest destDir hsxt, outPath_pre, string_eta, destName_append_tmpl hdot,
      outPath_append_tmpl, walk_dest destDir hsx]
  refine ⟨hp1, hp2, ?_⟩
  -- the run
  rw [renderDir_succ, hlist] at hok
  simp only at hok
  rcases hm : mkdirAll env destDir s with ⟨s0, _ | e⟩
  · rw [hm] at hok
    simp only at hok
    obtain ⟨pre, post, hsplit⟩ := List.append_of_mem hxt
    rw [hsplit, renderEntries_append] at hok
    rcases hpre : renderEntries (renderDir env data fuel) env srcDir destDir data pre s0 with
      _ | ⟨sa, _ | err⟩
    · rw [hpre] at hok; simp at hok
    · rw [hpre] at hok
      simp only at hok
      rw [renderEntries_cons] at hok
      rcases hre : renderEntry (renderDir env data fuel) env srcDir destDir data
        ⟨x ++ ".tmpl", false⟩ sa with _ | ⟨sb, _ | err⟩
      · rw [hre] at hok; simp at hok
      · rw [hre] at hok
        simp only at hok
        unfold renderEntry at hre
        rw [← destName_eq_spec] at hre
        simp only [Bool.false_eq_true, if_false, Option.some.injEq] at hre
        obtain ⟨content, out, k1, _, k3, k4⟩ := renderFile_ok_tmpl env _ _ data sa sb hsuf hre
        have hpo : trimSuffix (filepathJoin destDir (destName (x ++ ".tmpl"))) ".tmpl" =
            filepathJoin destDir (destName x) := by
          rw [← hp2]; simp [outPath, hsuf]
        rw [hpo] at k4
        refine ⟨content, out, k1, k3, ?_⟩
        have hpost : ∀ e ∈ post, embedName e.name ∧
            (e.isDir = false → outPath (destName e.name) ≠ destName x) := by
          intro e he
          have hmem : e ∈ entries := by rw [hsplit]; simp [he]
          refine ⟨hnames srcDir entries hlist e hmem, fun hd => hafter e hmem hd ?_⟩
          rw [hsplit, List.map_append, List.map_cons, List.pairwise_append] at hsorted
          exact (List.pairwise_cons.1 hsorted.2.1).1 _ (List.mem_map_of_mem _ he)
        rw [post_untouched env data fuel srcDir destDir (destName x) hnames hy post hpost sb s1
          none hok, k4]
        exact fileAt_written_self _ _ _
      · rw [hre] at hok; simp at hok
    · rw [hpre] at hok; simp at hok
  · rw [hm] at hok; simp at hok

/-- C9 as amended, on the sample directory `pairEnv`: `out/x` ends with the
output of `x.tmpl`, not with the bytes of `x`. -/
theorem renderDir_static_and_template_witness :
    outPath (filepathJoin "out" (destName "x")) = filepathJoin "out" (destName "x") ∧
    outPath (filepathJoin "out" (destName ("x" ++ ".tmpl"))) =
      filepathJoin "out" (destName "x") ∧
    ∃ content out, pairEnv.readFile (pathJoin "t" ("x" ++ ".tmpl")) = .ok content ∧
      pairEnv.execute (filepathBase (pathJoin "t" ("x" ++ ".tmpl"))) content "World" =
        (out, none) ∧
      fileAt pairFinal (filepathJoin "out" (destName "x")) = some out :=
  renderDir_static_and_template pairEnv "World" 1 "t" "out" "x"
    [⟨"x", false⟩, ⟨"x.tmpl", false⟩, ⟨"y", true⟩, ⟨"z", false⟩] emptyFS pairFinal
    (sampleEnv_forall embedName pairDirs _ (by decide)) (by decide) (by decide) (by decide) (by decide)
    (by decide) (by decide) (by decide) (by decide)

/-- C9 as stated fails. With `.env`, `.env.tmpl` and `dot.env` in one directory,
listed in that order, all three are written to `out/.env` and after the walk it
holds the bytes of `dot.env`, not the output of `.env.tmpl`. With `dot` and
`dot.tmpl`, the static file is written to `out/dot` and the template is to be
written to `out/`: not the same path. -/
theorem renderDir_static_and_template_counterexample :
    (hiddenEnv.readDir "t" =
        .ok [⟨".env", false⟩, ⟨".env.tmpl", false⟩, ⟨"dot.env", false⟩] ∧
      ([".env", ".env.tmpl", "dot.env"] : List String).Pairwise nameLt ∧
      renderDir hiddenEnv "World" 1 "t" "out" emptyFS =
        some ({ dirs := ["out", "out", "out", "out"],
                files := [("out/.env", "A=placeholder"), ("out/.env", ""), ("out/.env", "A=World"),
                  ("out/.env", ""), ("out/.env", "A=static"), ("out/.env", "")],
                log := [.openOk "out/.env", .mkdirOk "out", .openOk "out/.env", .mkdirOk "out",
                  .openOk "out/.env", .mkdirOk "out", .mkdirOk "out"] }, none) ∧
      hiddenEnv.execute (filepathBase (pathJoin "t" ".env.tmpl")) "A={{.}}" "World" =
        ("A=World", none)) ∧
    (dotTmplEnv.readDir "t" = .ok [⟨"dot", false⟩, ⟨"dot.tmpl", false⟩] ∧
      outPath (filepathJoin "out" (destName "dot")) = "out/dot" ∧
      outPath (filepathJoin "out" (destName "dot.tmpl")) = "out/" ∧
      renderDir dotTmplEnv "World" 1 "t" "out" emptyFS =
        some ({ dirs := ["out", "out", "out"],
                files := [("out/dot", "static"), ("out/dot", "")],
                log := [.openFail "out/" (.base "open out/: is a directory" false),
                  .mkdirOk "out", .openOk "out/dot", .mkdirOk "out", .mkdirOk "out"] },
          some (.base "open out/: is a directory" false))) := by
  decide

end Apex
